import Mathlib

/-!
Shallow embedding of the query-normalization and salary-estimation core of
the Catalitium job-search application (`app/models/db.py`, `app/app.py`).

Modelling conventions:
* Python `str` values are modelled as `List Char` (wrapped into `String` at
  the boundaries); the character classes `\d`, `\s`, `\w` of Python's `re`
  module are modelled over their ASCII range, which covers every value the
  program's tables and the claims use.
* Python `float` arithmetic is modelled by exact rationals `ℚ`; `int` by `ℤ`
  (or `ℕ` where the source value is a parsed non-negative number).
* `time.time()` is modelled by an explicit `now : ℚ` parameter.
* Python dicts are modelled by association lists with distinct keys, in
  insertion order (which Python guarantees).
-/

set_option maxRecDepth 16384

namespace Catalitium

/-- Python's `str.strip()` / `\s` whitespace over ASCII:
space, tab, newline, carriage return, vertical tab, form feed. -/
def pyIsSpace (c : Char) : Bool :=
  c = ' ' || c = '\t' || c = '\n' || c = '\x0d' || c = '\x0b' || c = '\x0c'

/-- The character class `[\d,.\s]` of the money-token regexes in
`app/models/db.py` (`parse_money_numbers`, `parse_salary_query`). -/
def moneyChar (c : Char) : Bool :=
  c.isDigit || c = ',' || c = '.' || pyIsSpace c

/-- Python `str.strip()`: drop leading and trailing whitespace. -/
def pyStrip (l : List Char) : List Char :=
  ((l.dropWhile pyIsSpace).reverse.dropWhile pyIsSpace).reverse

/-- The optional `k?` suffix (case-insensitive, from the `(?i)` flag) at the
head of a list: returns (matched suffix, remainder). -/
def optK : List Char → List Char × List Char
  | [] => ([], [])
  | c :: cs => if c = 'k' ∨ c = 'K' then ([c], cs) else ([], c :: cs)

theorem optK_snd_length_le (l : List Char) : (optK l).2.length ≤ l.length := by
  cases l with
  | nil => simp [optK]
  | cons c cs =>
    simp only [optK]
    split <;> simp

theorem optK_append (l : List Char) : (optK l).1 ++ (optK l).2 = l := by
  cases l with
  | nil => simp [optK]
  | cons c cs =>
    simp only [optK]
    split <;> simp

/-- Match of `(?i)(\d[\d,.\s]*k?)` anchored at the head of `l`: a digit, a
maximal (greedy) run of `[\d,.\s]`, then an optional `k`/`K`. -/
def matchSingleAt (l : List Char) : Option (List Char × List Char) :=
  match l with
  | [] => none
  | c :: cs =>
    if c.isDigit then
      let t := optK (cs.dropWhile moneyChar)
      some (c :: cs.takeWhile moneyChar ++ t.1, t.2)
    else none

/-- `re.findall(r'(?i)\d[\d,.\s]*k?', text)`: the money tokens, scanned left
to right, non-overlapping, the scan resuming after each match. The fuel
argument (instantiated with the text's length, which bounds the number of
steps) makes the recursion structural. -/
def moneyTokensF : ℕ → List Char → List (List Char)
  | 0, _ => []
  | _, [] => []
  | fuel + 1, c :: cs =>
    match matchSingleAt (c :: cs) with
    | some (g, rest) => g :: moneyTokensF fuel rest
    | none => moneyTokensF fuel cs

/-- All money tokens of a text (see `moneyTokensF`). -/
def moneyTokens (l : List Char) : List (List Char) :=
  moneyTokensF l.length l

/-- Decimal digits of an ASCII token to a natural number. -/
def digitsVal (l : List Char) : ℕ :=
  l.foldl (fun n c => n * 10 + (c.toNat - 48)) 0

/-- Python `str.rstrip("k")`: drop every trailing `k`. -/
def rstripK (l : List Char) : List Char :=
  (l.reverse.dropWhile (fun c => c = 'k')).reverse

/-- The body of the loop of `parse_money_numbers`: lowercase the raw token,
drop commas and spaces, read the `k` multiplier, drop the `k` suffix and the
dots, and keep the value only when the remainder is all digits. -/
def tokenValue (tok : List Char) : Option ℕ :=
  let clean := ((tok.map Char.toLower).filter (fun c => c ≠ ',')).filter
    (fun c => c ≠ ' ')
  let mult : ℕ := if clean.getLast? = some 'k' then 1000 else 1
  let clean2 := (rstripK clean).filter (fun c => c ≠ '.')
  if clean2 ≠ [] ∧ clean2.all Char.isDigit then some (digitsVal clean2 * mult)
  else none

/-- `parse_money_numbers` from `app/models/db.py`. -/
def parse_money_numbers (l : List Char) : List ℕ :=
  (moneyTokens l).filterMap tokenValue

/-- Match of `(?i)(\d[\d,.\s]*k?)\s*[-–]\s*(\d[\d,.\s]*k?)` anchored at the
head of `l`: returns (group 1, group 2, remainder after the match).
The regex is deterministic here: the class `[\d,.\s]` contains every
whitespace character but neither `k` nor a dash, so the greedy run, the
optional `k` and the `\s*` skips never need to backtrack. -/
def matchRangeAt (l : List Char) : Option (List Char × List Char × List Char) :=
  match l with
  | [] => none
  | c :: cs =>
    if c.isDigit then
      let run1 := cs.takeWhile moneyChar
      let t1 := optK (cs.dropWhile moneyChar)
      let r2 := t1.2.dropWhile pyIsSpace
      match r2 with
      | d :: r3 =>
        if d = '-' ∨ d = '–' then
          let r4 := r3.dropWhile pyIsSpace
          match r4 with
          | e :: r5 =>
            if e.isDigit then
              let run2 := r5.takeWhile moneyChar
              let t2 := optK (r5.dropWhile moneyChar)
              some (c :: run1 ++ t1.1, e :: run2 ++ t2.1, t2.2)
            else none
          | [] => none
        else none
      | [] => none
    else none

/-- `re.search` of the range pattern: try each start position left to right;
`acc` is the text before the current position. Returns
(text before the match, group 1, group 2, text after the match). -/
def findRange (acc : List Char) :
    List Char → Option (List Char × List Char × List Char × List Char)
  | [] => none
  | c :: cs =>
    match matchRangeAt (c :: cs) with
    | some (g1, g2, rest) => some (acc, g1, g2, rest)
    | none => findRange (acc ++ [c]) cs

/-- The optional `=?` after the comparison symbol: skip one leading `=`. -/
def eqSkip : List Char → List Char
  | e :: t => if e = '=' then t else e :: t
  | [] => []

/-- Match of `(?i)SYM\s*=?\s*(\d[\d,.\s]*k?)` (with `SYM` being `>` or `<`)
anchored at the head of `l`: returns (group, remainder). -/
def matchCmpAt (sym : Char) (l : List Char) : Option (List Char × List Char) :=
  match l with
  | [] => none
  | c :: cs =>
    if c = sym then
      let r1 := cs.dropWhile pyIsSpace
      let r2 := eqSkip r1
      let r3 := r2.dropWhile pyIsSpace
      match r3 with
      | d :: r4 =>
        if d.isDigit then
          let t := optK (r4.dropWhile moneyChar)
          some (d :: r4.takeWhile moneyChar ++ t.1, t.2)
        else none
      | [] => none
    else none

/-- `re.search` of the `>`/`<` bound pattern. -/
def findCmp (sym : Char) (acc : List Char) :
    List Char → Option (List Char × List Char × List Char)
  | [] => none
  | c :: cs =>
    match matchCmpAt sym (c :: cs) with
    | some (g, rest) => some (acc, g, rest)
    | none => findCmp sym (acc ++ [c]) cs

/-- `re.search` of the single bare-number pattern. -/
def findSingle (acc : List Char) :
    List Char → Option (List Char × List Char × List Char)
  | [] => none
  | c :: cs =>
    match matchSingleAt (c :: cs) with
    | some (g, rest) => some (acc, g, rest)
    | none => findSingle (acc ++ [c]) cs

/-- `parse_salary_query` from `app/models/db.py`: try, in order, the range
pattern, the `>` pattern, the `<` pattern and the single-number pattern;
remove the matched substring from the cleaned text; a bare number is a
floor only. -/
def parse_salary_query (q : String) : String × Option ℕ × Option ℕ :=
  if q.data.isEmpty then ("", none, none) else
  let s := pyStrip q.data
  match findRange [] s with
  | some (pre, g1, g2, rest) =>
      (⟨pyStrip (pre ++ rest)⟩, (parse_money_numbers g1).head?,
        (parse_money_numbers g2).getLast?)
  | none =>
  match findCmp '>' [] s with
  | some (pre, g, rest) =>
      (⟨pyStrip (pre ++ rest)⟩, (parse_money_numbers g).head?, none)
  | none =>
  match findCmp '<' [] s with
  | some (pre, g, rest) =>
      (⟨pyStrip (pre ++ rest)⟩, none, (parse_money_numbers g).head?)
  | none =>
  match findSingle [] s with
  | some (pre, g, rest) =>
      (⟨pyStrip (pre ++ rest)⟩, (parse_money_numbers g).head?, none)
  | none => (⟨s⟩, none, none)

example : parse_salary_query "80k-120k senior dev" =
    ("senior dev", some 80000, some 120000) := by decide

example : parse_salary_query ">100k engineer" = ("engineer", some 100000, none) := by
  decide

example : parse_salary_query "<=90k" = ("", none, some 90000) := by decide

example : parse_salary_query "web3 developer" = ("webdeveloper", some 3, none) := by
  decide

example : parse_salary_query "1\t2" = ("", none, none) := by decide

/-! Facts about the matchers and searches of `parse_salary_query`: a matcher
fires only on a digit, and a successful search splits the text into the part
before the match, a nonempty matched substring and the part after it. -/

theorem eqSkip_suffix (u : List Char) : eqSkip u <:+ u := by
  match u with
  | [] => exact List.suffix_refl _
  | e :: t =>
    show (if e = '=' then t else e :: t) <:+ e :: t
    split
    · exact List.suffix_cons e t
    · exact List.suffix_refl _

theorem matchSingleAt_some_digit (l : List Char) (x : List Char × List Char)
    (h : matchSingleAt l = some x) : ∃ d ∈ l, d.isDigit = true := by
  match l with
  | [] => cases h
  | c :: cs =>
    unfold matchSingleAt at h
    dsimp only at h
    split at h
    · rename_i hc
      exact ⟨c, List.mem_cons_self c cs, hc⟩
    · cases h

theorem matchRangeAt_some_digit (l : List Char)
    (x : List Char × List Char × List Char)
    (h : matchRangeAt l = some x) : ∃ d ∈ l, d.isDigit = true := by
  match l with
  | [] => cases h
  | c :: cs =>
    unfold matchRangeAt at h
    dsimp only at h
    split at h
    · rename_i hc
      exact ⟨c, List.mem_cons_self c cs, hc⟩
    · cases h

theorem matchCmpAt_some_digit (sym : Char) (l : List Char)
    (x : List Char × List Char)
    (h : matchCmpAt sym l = some x) : ∃ d ∈ l, d.isDigit = true := by
  match l with
  | [] => cases h
  | c :: cs =>
    unfold matchCmpAt at h
    dsimp only at h
    split at h
    · split at h
      · rename_i d r4 heq
        split at h
        · rename_i hd
          refine ⟨d, List.mem_cons_of_mem c ?_, hd⟩
          have h1 : d ∈ (eqSkip (cs.dropWhile pyIsSpace)).dropWhile pyIsSpace := by
            rw [heq]
            exact List.mem_cons_self d r4
          exact (List.dropWhile_suffix pyIsSpace).subset
            ((eqSkip_suffix _).subset ((List.dropWhile_suffix pyIsSpace).subset h1))
        · cases h
      · cases h
    · cases h

theorem matchSingleAt_none_of_no_digit (l : List Char)
    (h : ∀ d ∈ l, d.isDigit = false) : matchSingleAt l = none := by
  rcases hm : matchSingleAt l with _ | x
  · rfl
  · rcases matchSingleAt_some_digit l x hm with ⟨d, hd, hdig⟩
    rw [h d hd] at hdig
    cases hdig

theorem matchRangeAt_none_of_no_digit (l : List Char)
    (h : ∀ d ∈ l, d.isDigit = false) : matchRangeAt l = none := by
  rcases hm : matchRangeAt l with _ | x
  · rfl
  · rcases matchRangeAt_some_digit l x hm with ⟨d, hd, hdig⟩
    rw [h d hd] at hdig
    cases hdig

theorem matchCmpAt_none_of_no_digit (sym : Char) (l : List Char)
    (h : ∀ d ∈ l, d.isDigit = false) : matchCmpAt sym l = none := by
  rcases hm : matchCmpAt sym l with _ | x
  · rfl
  · rcases matchCmpAt_some_digit sym l x hm with ⟨d, hd, hdig⟩
    rw [h d hd] at hdig
    cases hdig

theorem findRange_none_of_no_digit :
    ∀ (l acc : List Char), (∀ d ∈ l, d.isDigit = false) →
      findRange acc l = none := by
  intro l
  induction l with
  | nil => intro acc h; rfl
  | cons c cs ih =>
    intro acc h
    unfold findRange
    rw [matchRangeAt_none_of_no_digit _ h]
    exact ih (acc ++ [c]) (fun d hd => h d (List.mem_cons_of_mem c hd))

theorem findCmp_none_of_no_digit (sym : Char) :
    ∀ (l acc : List Char), (∀ d ∈ l, d.isDigit = false) →
      findCmp sym acc l = none := by
  intro l
  induction l with
  | nil => intro acc h; rfl
  | cons c cs ih =>
    intro acc h
    unfold findCmp
    rw [matchCmpAt_none_of_no_digit sym _ h]
    exact ih (acc ++ [c]) (fun d hd => h d (List.mem_cons_of_mem c hd))

theorem findSingle_none_of_no_digit :
    ∀ (l acc : List Char), (∀ d ∈ l, d.isDigit = false) →
      findSingle acc l = none := by
  intro l
  induction l with
  | nil => intro acc h; rfl
  | cons c cs ih =>
    intro acc h
    unfold findSingle
    rw [matchSingleAt_none_of_no_digit _ h]
    exact ih (acc ++ [c]) (fun d hd => h d (List.mem_cons_of_mem c hd))

theorem matchSingleAt_decomp (l g rest : List Char)
    (h : matchSingleAt l = some (g, rest)) : g ≠ [] ∧ l = g ++ rest := by
  match l with
  | [] => cases h
  | c :: cs =>
    unfold matchSingleAt at h
    dsimp only at h
    split at h
    · simp only [Option.some.injEq, Prod.mk.injEq] at h
      obtain ⟨hg, hr⟩ := h
      subst hg
      subst hr
      refine ⟨by simp, ?_⟩
      simp only [List.cons_append, List.append_assoc, optK_append,
        List.takeWhile_append_dropWhile]
    · cases h

theorem matchCmpAt_decomp (sym : Char) (l g rest : List Char)
    (h : matchCmpAt sym l = some (g, rest)) :
    ∃ mid, mid ≠ [] ∧ l = mid ++ rest := by
  match l with
  | [] => cases h
  | c :: cs =>
    unfold matchCmpAt at h
    dsimp only at h
    split at h
    · split at h
      · rename_i d r4 heq
        split at h
        · simp only [Option.some.injEq, Prod.mk.injEq] at h
          obtain ⟨hg, hr⟩ := h
          have hsuf : rest <:+ c :: cs := by
            rw [← hr]
            have s1 : (optK (r4.dropWhile moneyChar)).2 <:+ r4.dropWhile moneyChar :=
              ⟨(optK (r4.dropWhile moneyChar)).1, optK_append _⟩
            have s2 : r4.dropWhile moneyChar <:+ r4 := List.dropWhile_suffix _
            have s3 : r4 <:+ (eqSkip (cs.dropWhile pyIsSpace)).dropWhile pyIsSpace := by
              rw [heq]
              exact List.suffix_cons d r4
            have s4 : (eqSkip (cs.dropWhile pyIsSpace)).dropWhile pyIsSpace <:+
                eqSkip (cs.dropWhile pyIsSpace) := List.dropWhile_suffix _
            have s5 : eqSkip (cs.dropWhile pyIsSpace) <:+ cs.dropWhile pyIsSpace :=
              eqSkip_suffix _
            have s6 : cs.dropWhile pyIsSpace <:+ cs := List.dropWhile_suffix _
            have s7 : cs <:+ c :: cs := List.suffix_cons c cs
            exact (((((s1.trans s2).trans s3).trans s4).trans s5).trans s6).trans s7
          have hlen : rest.length ≤ cs.length := by
            have h1 : rest.length ≤ r4.length := by
              rw [← hr]
              calc (optK (r4.dropWhile moneyChar)).2.length
                  ≤ (r4.dropWhile moneyChar).length := optK_snd_length_le _
                _ ≤ r4.length := (List.dropWhile_suffix _).length_le
            have h2 : r4.length <
                ((eqSkip (cs.dropWhile pyIsSpace)).dropWhile pyIsSpace).length := by
              rw [heq]
              simp
            have h3 : ((eqSkip (cs.dropWhile pyIsSpace)).dropWhile pyIsSpace).length ≤
                cs.length :=
              le_trans ((List.dropWhile_suffix _).length_le)
                (le_trans (eqSkip_suffix _).length_le ((List.dropWhile_suffix _).length_le))
            omega
          obtain ⟨mid, hmid⟩ := hsuf
          refine ⟨mid, ?_, hmid.symm⟩
          intro hniz
          rw [hniz, List.nil_append] at hmid
          rw [hmid, List.length_cons] at hlen
          omega
        · cases h
      · cases h
    · cases h

theorem matchRangeAt_decomp (l g1 g2 rest : List Char)
    (h : matchRangeAt l = some (g1, g2, rest)) :
    ∃ mid, mid ≠ [] ∧ l = mid ++ rest := by
  match l with
  | [] => cases h
  | c :: cs =>
    unfold matchRangeAt at h
    dsimp only at h
    split at h
    · split at h
      · rename_i d r3 heq1
        split at h
        · split at h
          · rename_i e r5 heq2
            split at h
            · simp only [Option.some.injEq, Prod.mk.injEq] at h
              obtain ⟨hg1, hg2, hr⟩ := h
              have hsuf : rest <:+ c :: cs := by
                rw [← hr]
                have s1 : (optK (r5.dropWhile moneyChar)).2 <:+
                    r5.dropWhile moneyChar :=
                  ⟨(optK (r5.dropWhile moneyChar)).1, optK_append _⟩
                have s2 : r5.dropWhile moneyChar <:+ r5 := List.dropWhile_suffix _
                have s3 : r5 <:+ r3.dropWhile pyIsSpace := by
                  rw [heq2]
                  exact List.suffix_cons e r5
                have s4 : r3.dropWhile pyIsSpace <:+ r3 := List.dropWhile_suffix _
                have s5 : r3 <:+
                    ((optK (cs.dropWhile moneyChar)).2).dropWhile pyIsSpace := by
                  rw [heq1]
                  exact List.suffix_cons d r3
                have s6 : ((optK (cs.dropWhile moneyChar)).2).dropWhile pyIsSpace <:+
                    (optK (cs.dropWhile moneyChar)).2 := List.dropWhile_suffix _
                have s7 : (optK (cs.dropWhile moneyChar)).2 <:+
                    cs.dropWhile moneyChar :=
                  ⟨(optK (cs.dropWhile moneyChar)).1, optK_append _⟩
                have s8 : cs.dropWhile moneyChar <:+ cs := List.dropWhile_suffix _
                have s9 : cs <:+ c :: cs := List.suffix_cons c cs
                exact (((((((s1.trans s2).trans s3).trans s4).trans s5).trans
                  s6).trans s7).trans s8).trans s9
              have hlen : rest.length ≤ cs.length := by
                have h1 : rest.length ≤ r5.length := by
                  rw [← hr]
                  calc (optK (r5.dropWhile moneyChar)).2.length
                      ≤ (r5.dropWhile moneyChar).length := optK_snd_length_le _
                    _ ≤ r5.length := (List.dropWhile_suffix _).length_le
                have h2 : r5.length < (r3.dropWhile pyIsSpace).length := by
                  rw [heq2]
                  simp
                have h3 : (r3.dropWhile pyIsSpace).length ≤ r3.length :=
                  (List.dropWhile_suffix _).length_le
                have h4 : r3.length <
                    (((optK (cs.dropWhile moneyChar)).2).dropWhile pyIsSpace).length := by
                  rw [heq1]
                  simp
                have h5 : (((optK (cs.dropWhile moneyChar)).2).dropWhile
                    pyIsSpace).length ≤ cs.length :=
                  le_trans ((List.dropWhile_suffix _).length_le)
                    (le_trans (optK_snd_length_le _) ((List.dropWhile_suffix _).length_le))
                omega
              obtain ⟨mid, hmid⟩ := hsuf
              refine ⟨mid, ?_, hmid.symm⟩
              intro hniz
              rw [hniz, List.nil_append] at hmid
              rw [hmid, List.length_cons] at hlen
              omega
            · cases h
          · cases h
        · cases h
      · cases h
    · cases h

theorem findRange_decomp (pre g1 g2 rest : List Char) :
    ∀ (l acc : List Char), findRange acc l = some (pre, g1, g2, rest) →
      ∃ mid, mid ≠ [] ∧ acc ++ l = pre ++ mid ++ rest := by
  intro l
  induction l with
  | nil => intro acc h; cases h
  | cons c cs ih =>
    intro acc h
    unfold findRange at h
    split at h
    · rename_i g1x g2x restx heq
      simp only [Option.some.injEq, Prod.mk.injEq] at h
      obtain ⟨hpre, hg1, hg2, hrest⟩ := h
      subst hpre
      subst hg1
      subst hg2
      subst hrest
      obtain ⟨mid, hne, hdec⟩ := matchRangeAt_decomp _ _ _ _ heq
      exact ⟨mid, hne, by simp only [hdec, List.append_assoc]⟩
    · obtain ⟨mid, hne, hdec⟩ := ih (acc ++ [c]) h
      exact ⟨mid, hne, by rw [← hdec]; simp⟩

theorem findCmp_decomp (sym : Char) (pre g rest : List Char) :
    ∀ (l acc : List Char), findCmp sym acc l = some (pre, g, rest) →
      ∃ mid, mid ≠ [] ∧ acc ++ l = pre ++ mid ++ rest := by
  intro l
  induction l with
  | nil => intro acc h; cases h
  | cons c cs ih =>
    intro acc h
    unfold findCmp at h
    split at h
    · rename_i gx restx heq
      simp only [Option.some.injEq, Prod.mk.injEq] at h
      obtain ⟨hpre, hg, hrest⟩ := h
      subst hpre
      subst hg
      subst hrest
      obtain ⟨mid, hne, hdec⟩ := matchCmpAt_decomp _ _ _ _ heq
      exact ⟨mid, hne, by simp only [hdec, List.append_assoc]⟩
    · obtain ⟨mid, hne, hdec⟩ := ih (acc ++ [c]) h
      exact ⟨mid, hne, by rw [← hdec]; simp⟩

theorem findSingle_decomp (pre g rest : List Char) :
    ∀ (l acc : List Char), findSingle acc l = some (pre, g, rest) →
      ∃ mid, mid ≠ [] ∧ acc ++ l = pre ++ mid ++ rest := by
  intro l
  induction l with
  | nil => intro acc h; cases h
  | cons c cs ih =>
    intro acc h
    unfold findSingle at h
    split at h
    · rename_i gx restx heq
      simp only [Option.some.injEq, Prod.mk.injEq] at h
      obtain ⟨hpre, hg, hrest⟩ := h
      subst hpre
      subst hg
      subst hrest
      obtain ⟨hne, hdec⟩ := matchSingleAt_decomp _ _ _ heq
      exact ⟨gx, hne, by simp only [hdec, List.append_assoc]⟩
    · obtain ⟨mid, hne, hdec⟩ := ih (acc ++ [c]) h
      exact ⟨mid, hne, by rw [← hdec]; simp⟩

theorem findSingle_some_of_digit :
    ∀ (l acc : List Char), (∃ c ∈ l, c.isDigit = true) →
      findSingle acc l ≠ none := by
  intro l
  induction l with
  | nil =>
    intro acc h
    rcases h with ⟨c, hc, _⟩
    cases hc
  | cons a as ih =>
    intro acc h
    unfold findSingle
    rcases hm : matchSingleAt (a :: as) with _ | p
    · have ha : a.isDigit = false := by
        by_contra hb
        rw [Bool.not_eq_false] at hb
        unfold matchSingleAt at hm
        dsimp only at hm
        rw [if_pos hb] at hm
        cases hm
      rcases h with ⟨c, hc, hcd⟩
      rcases List.mem_cons.mp hc with rfl | h2
      · rw [hcd] at ha
        cases ha
      · exact ih (acc ++ [a]) ⟨c, h2, hcd⟩
    · rcases p with ⟨g, rest⟩
      simp

theorem digit_not_space (c : Char) (h : c.isDigit = true) : pyIsSpace c = false := by
  by_contra hb
  rw [Bool.not_eq_false] at hb
  unfold pyIsSpace at hb
  simp only [Bool.or_eq_true, decide_eq_true_eq] at hb
  rcases hb with ((((hb | hb) | hb) | hb) | hb) | hb <;> subst hb <;>
    exact absurd h (by decide)

theorem mem_dropWhile_not (p : Char → Bool) (l : List Char) (c : Char)
    (hc : c ∈ l) (hp : p c = false) : c ∈ l.dropWhile p := by
  induction l with
  | nil => cases hc
  | cons a as ih =>
    rw [List.dropWhile_cons]
    split
    · rename_i hpa
      rcases List.mem_cons.mp hc with rfl | h2
      · rw [hp] at hpa
        cases hpa
      · exact ih h2
    · exact hc

theorem mem_pyStrip {l : List Char} {c : Char} (h : c ∈ pyStrip l) : c ∈ l := by
  unfold pyStrip at h
  rw [List.mem_reverse] at h
  have h2 := (List.dropWhile_sublist _).subset h
  rw [List.mem_reverse] at h2
  exact (List.dropWhile_sublist _).subset h2

theorem mem_pyStrip_of_not_space {l : List Char} {c : Char} (hc : c ∈ l)
    (hns : pyIsSpace c = false) : c ∈ pyStrip l := by
  unfold pyStrip
  rw [List.mem_reverse]
  exact mem_dropWhile_not _ _ _
    (List.mem_reverse.mpr (mem_dropWhile_not _ _ _ hc hns)) hns

/-- C1: `parse_salary_query` applies exactly the first matching pattern in the
fixed precedence order — range, then lower bound, then upper bound, then bare
number — removes the matched substring from the cleaned text, and returns both
bounds as `none` when no pattern matches; and on the three quoted inputs it
returns the quoted results. -/
theorem parse_salary_query_precedence :
    parse_salary_query "80k-120k senior dev" = ("senior dev", some 80000, some 120000)
    ∧ parse_salary_query ">100k engineer" = ("engineer", some 100000, none)
    ∧ parse_salary_query "<=90k" = ("", none, some 90000)
    ∧ (∀ q : String, ∀ pre g1 g2 rest : List Char, q.data ≠ [] →
        findRange [] (pyStrip q.data) = some (pre, g1, g2, rest) →
        parse_salary_query q =
          (⟨pyStrip (pre ++ rest)⟩, (parse_money_numbers g1).head?,
            (parse_money_numbers g2).getLast?))
    ∧ (∀ q : String, ∀ pre g rest : List Char, q.data ≠ [] →
        findRange [] (pyStrip q.data) = none →
        findCmp '>' [] (pyStrip q.data) = some (pre, g, rest) →
        parse_salary_query q =
          (⟨pyStrip (pre ++ rest)⟩, (parse_money_numbers g).head?, none))
    ∧ (∀ q : String, ∀ pre g rest : List Char, q.data ≠ [] →
        findRange [] (pyStrip q.data) = none →
        findCmp '>' [] (pyStrip q.data) = none →
        findCmp '<' [] (pyStrip q.data) = some (pre, g, rest) →
        parse_salary_query q =
          (⟨pyStrip (pre ++ rest)⟩, none, (parse_money_numbers g).head?))
    ∧ (∀ q : String, ∀ pre g rest : List Char, q.data ≠ [] →
        findRange [] (pyStrip q.data) = none →
        findCmp '>' [] (pyStrip q.data) = none →
        findCmp '<' [] (pyStrip q.data) = none →
        findSingle [] (pyStrip q.data) = some (pre, g, rest) →
        parse_salary_query q =
          (⟨pyStrip (pre ++ rest)⟩, (parse_money_numbers g).head?, none))
    ∧ (∀ q : String,
        findRange [] (pyStrip q.data) = none →
        findCmp '>' [] (pyStrip q.data) = none →
        findCmp '<' [] (pyStrip q.data) = none →
        findSingle [] (pyStrip q.data) = none →
        parse_salary_query q = (⟨pyStrip q.data⟩, none, none)) := by
  refine ⟨by decide, by decide, by decide, ?_, ?_, ?_, ?_, ?_⟩
  · intro q pre g1 g2 rest hne hf
    unfold parse_salary_query
    rw [if_neg (fun hh => hne (List.isEmpty_iff.mp hh))]
    dsimp only
    rw [hf]
  · intro q pre g rest hne h0 hf
    unfold parse_salary_query
    rw [if_neg (fun hh => hne (List.isEmpty_iff.mp hh))]
    dsimp only
    rw [h0, hf]
  · intro q pre g rest hne h0 h1 hf
    unfold parse_salary_query
    rw [if_neg (fun hh => hne (List.isEmpty_iff.mp hh))]
    dsimp only
    rw [h0, h1, hf]
  · intro q pre g rest hne h0 h1 h2 hf
    unfold parse_salary_query
    rw [if_neg (fun hh => hne (List.isEmpty_iff.mp hh))]
    dsimp only
    rw [h0, h1, h2, hf]
  · intro q h0 h1 h2 h3
    by_cases hq : q.data.isEmpty = true
    · have hql : q.data = [] := List.isEmpty_iff.mp hq
      unfold parse_salary_query
      rw [if_pos hq, hql]
      rfl
    · unfold parse_salary_query
      rw [if_neg hq]
      dsimp only
      rw [h0, h1, h2, h3]

/-- C10 counterexample: an input that contains a digit but for which
`parse_salary_query` sets neither bound. The single-number pattern matches
the whole of `1\t2`, but the cleaned token `1\t2` still holds a tab, is not
all digits, and so yields no value. -/
theorem parse_salary_query_digit_without_bounds :
    (∃ c ∈ ("1\t2" : String).data, c.isDigit = true) ∧
    parse_salary_query "1\t2" = ("", none, none) := by
  constructor
  · exact ⟨'1', by decide, by decide⟩
  · decide

/-- C10 amended: if the input holds no decimal digit, `parse_salary_query`
returns the stripped input with both bounds `none`; if it holds a digit, some
pattern matches and the matched nonempty substring is removed from the
cleaned text (but a bound need not be set, see the counterexample); and
`web3 developer` yields floor 3 and cleaned text `webdeveloper`. -/
theorem parse_salary_query_digit_bounds :
    (∀ q : String, (∀ c ∈ q.data, c.isDigit = false) →
        parse_salary_query q = (⟨pyStrip q.data⟩, none, none))
    ∧ (∀ q : String, (∃ c ∈ q.data, c.isDigit = true) →
        ∃ pre mid rest : List Char, mid ≠ [] ∧
          pyStrip q.data = pre ++ mid ++ rest ∧
          (parse_salary_query q).1 = ⟨pyStrip (pre ++ rest)⟩)
    ∧ parse_salary_query "web3 developer" = ("webdeveloper", some 3, none) := by
  refine ⟨?_, ?_, by decide⟩
  · intro q h
    by_cases hq : q.data.isEmpty = true
    · have hql : q.data = [] := List.isEmpty_iff.mp hq
      unfold parse_salary_query
      rw [if_pos hq, hql]
      rfl
    · have hs : ∀ d ∈ pyStrip q.data, d.isDigit = false :=
        fun d hd => h d (mem_pyStrip hd)
      unfold parse_salary_query
      rw [if_neg hq]
      dsimp only
      rw [findRange_none_of_no_digit _ [] hs, findCmp_none_of_no_digit '>' _ [] hs,
        findCmp_none_of_no_digit '<' _ [] hs, findSingle_none_of_no_digit _ [] hs]
  · intro q hd
    obtain ⟨c0, hc0, hcd⟩ := hd
    have hne : q.data ≠ [] := List.ne_nil_of_mem hc0
    have hq : ¬(q.data.isEmpty = true) := fun hh => hne (List.isEmpty_iff.mp hh)
    unfold parse_salary_query
    rw [if_neg hq]
    dsimp only
    rcases hfr : findRange [] (pyStrip q.data) with _ | ⟨pre, g1, g2, rest⟩
    · rcases hg : findCmp '>' [] (pyStrip q.data) with _ | ⟨pre, g, rest⟩
      · rcases hl : findCmp '<' [] (pyStrip q.data) with _ | ⟨pre, g, rest⟩
        · rcases hs : findSingle [] (pyStrip q.data) with _ | ⟨pre, g, rest⟩
          · exact absurd hs (findSingle_some_of_digit _ []
              ⟨c0, mem_pyStrip_of_not_space hc0 (digit_not_space c0 hcd), hcd⟩)
          · obtain ⟨mid, hmne, hdec⟩ := findSingle_decomp pre g rest _ [] hs
            rw [List.nil_append] at hdec
            exact ⟨pre, mid, rest, hmne, hdec, rfl⟩
        · obtain ⟨mid, hmne, hdec⟩ := findCmp_decomp '<' pre g rest _ [] hl
          rw [List.nil_append] at hdec
          exact ⟨pre, mid, rest, hmne, hdec, rfl⟩
      · obtain ⟨mid, hmne, hdec⟩ := findCmp_decomp '>' pre g rest _ [] hg
        rw [List.nil_append] at hdec
        exact ⟨pre, mid, rest, hmne, hdec, rfl⟩
    · obtain ⟨mid, hmne, hdec⟩ := findRange_decomp pre g1 g2 rest _ [] hfr
      rw [List.nil_append] at hdec
      exact ⟨pre, mid, rest, hmne, hdec, rfl⟩

/-! ### Title normalization (`normalize_title`, `app/models/db.py`) -/

/-- Python `str.lower()` (ASCII model). -/
def lowerL (l : List Char) : List Char :=
  l.map Char.toLower

/-- Python `str.upper()` (ASCII model). -/
def upperL (l : List Char) : List Char :=
  l.map Char.toUpper

/-- Python `s.replace(k, v)` for a nonempty `k`: replace every
non-overlapping occurrence of `k`, scanning left to right (the replacement
text is not rescanned). The fuel (instantiated with the text's length)
makes the recursion structural; `k = []` never occurs (every key of the
synonym table and of `_escape_like` is nonempty). -/
def replaceAllF (k v : List Char) : ℕ → List Char → List Char
  | 0, l => l
  | _ + 1, [] => []
  | fuel + 1, c :: cs =>
    if k.isPrefixOf (c :: cs) ∧ k ≠ [] then
      v ++ replaceAllF k v fuel (cs.drop (k.length - 1))
    else c :: replaceAllF k v fuel cs

/-- Python `s.replace(k, v)` (see `replaceAllF`). -/
def replaceAll (k v l : List Char) : List Char :=
  replaceAllF k v l.length l

/-- Python's substring test `k in s`. -/
def containsSub (k : List Char) : List Char → Bool
  | [] => k.isPrefixOf []
  | c :: cs => k.isPrefixOf (c :: cs) || containsSub k cs

/-- `TITLE_SYNONYMS` from `app/models/db.py`, in the source's (insertion)
order, which is the order the substitution loop applies them in. -/
def TITLE_SYNONYMS : List (String × String) :=
  [("swe", "software engineer"), ("software eng", "software engineer"),
   ("sw eng", "software engineer"),
   ("frontend", "front end"), ("front-end", "front end"),
   ("backend", "back end"), ("back-end", "back end"),
   ("fullstack", "full stack"), ("full-stack", "full stack"),
   ("pm", "product manager"), ("prod mgr", "product manager"),
   ("product owner", "product manager"),
   ("ds", "data scientist"), ("ml", "machine learning"),
   ("mle", "machine learning engineer"),
   ("sre", "site reliability engineer"), ("devops", "devops"),
   ("sec eng", "security engineer"), ("infosec", "security"),
   ("programmer", "developer"), ("coder", "developer")]

/-- The synonym-substitution loop of `normalize_title`:
`for k, v in TITLE_SYNONYMS.items(): if k in s: s = s.replace(k, v)`. -/
def applySynonyms (l : List Char) : List Char :=
  TITLE_SYNONYMS.foldl
    (fun s kv => if containsSub kv.1.data s then replaceAll kv.1.data kv.2.data s else s)
    l

/-- The character class `\w` of Python's `re` (ASCII model):
letters, digits, underscore. -/
def isPyWord (c : Char) : Bool :=
  c.isAlphanum || c = '_'

/-- A character kept unchanged by `re.sub(r"[^\w\s\-\/]", " ", s)`. -/
def keptPunct (c : Char) : Bool :=
  isPyWord c || pyIsSpace c || c = '-' || c = '/'

/-- `re.sub(r"[^\w\s\-\/]", " ", s)`: replace every other character by a
space. -/
def punctToSpace (l : List Char) : List Char :=
  l.map (fun c => if keptPunct c then c else ' ')

/-- `re.sub(r"\s+", " ", s)`: collapse every whitespace run to one space.
The flag records whether the previous character was whitespace. -/
def collapseWsGo : Bool → List Char → List Char
  | _, [] => []
  | prev, c :: cs =>
    if pyIsSpace c then
      if prev then collapseWsGo true cs else ' ' :: collapseWsGo true cs
    else c :: collapseWsGo false cs

/-- `re.sub(r"\s+", " ", s)` (see `collapseWsGo`). -/
def collapseWs (l : List Char) : List Char :=
  collapseWsGo false l

/-- `normalize_title` from `app/models/db.py`: lowercase, apply the synonym
substitutions in table order, replace punctuation (except `-` and `/`) by
spaces, collapse whitespace and strip. -/
def normalize_title (q : String) : String :=
  if q.data.isEmpty then "" else
  ⟨pyStrip (collapseWs (punctToSpace (applySynonyms (lowerL q.data))))⟩

example : normalize_title "swe" = "software engineerineer" := by decide

example : normalize_title (normalize_title "swe") = "software engineerineerineer" := by
  decide

example : normalize_title "Senior Developer!" = "senior developer" := by decide

/-! ### Idempotence analysis of `normalize_title` -/

theorem char_toNat_ofNat_of_lt (n : ℕ) (h : n < 55296) :
    (Char.ofNat n).toNat = n := by
  unfold Char.ofNat
  rw [dif_pos (Or.inl h)]
  unfold Char.ofNatAux
  simp [Char.toNat, UInt32.toNat, BitVec.toNat_ofNatLt]

theorem char_toLower_idem (c : Char) : c.toLower.toLower = c.toLower := by
  unfold Char.toLower
  dsimp only
  split
  · next h =>
    have h32 : (Char.ofNat (c.toNat + 32)).toNat = c.toNat + 32 :=
      char_toNat_ofNat_of_lt _ (by omega)
    rw [if_neg (by omega)]
  · rfl

theorem lowerL_stable (l : List Char) : ∀ c ∈ lowerL l, Char.toLower c = c := by
  intro c hc
  rcases List.mem_map.1 hc with ⟨d, _, rfl⟩
  exact char_toLower_idem d

theorem mem_replaceAllF (k v : List Char) :
    ∀ (fuel : ℕ) (l : List Char) (c : Char),
      c ∈ replaceAllF k v fuel l → c ∈ v ∨ c ∈ l := by
  intro fuel
  induction fuel with
  | zero =>
    intro l c hc
    exact Or.inr hc
  | succ f ih =>
    intro l c hc
    cases l with
    | nil => simp [replaceAllF] at hc
    | cons a cs =>
      rw [replaceAllF] at hc
      by_cases hp : k.isPrefixOf (a :: cs) = true ∧ k ≠ []
      · rw [if_pos hp] at hc
        rcases List.mem_append.1 hc with h | h
        · exact Or.inl h
        · rcases ih _ _ h with h | h
          · exact Or.inl h
          · exact Or.inr (List.mem_cons_of_mem a (List.drop_subset _ _ h))
      · rw [if_neg hp] at hc
        rcases List.mem_cons.1 hc with rfl | h
        · exact Or.inr (List.mem_cons_self _ _)
        · rcases ih _ _ h with h | h
          · exact Or.inl h
          · exact Or.inr (List.mem_cons_of_mem a h)

theorem mem_synFold (T : List (String × String)) :
    ∀ (l : List Char) (c : Char),
      c ∈ T.foldl
        (fun s kv =>
          if containsSub kv.1.data s then replaceAll kv.1.data kv.2.data s else s) l →
      c ∈ l ∨ ∃ kv ∈ T, c ∈ kv.2.data := by
  induction T with
  | nil =>
    intro l c h
    exact Or.inl h
  | cons kv T ih =>
    intro l c h
    rw [List.foldl_cons] at h
    rcases ih _ c h with h' | h'
    · by_cases hck : containsSub kv.1.data l = true
      · rw [if_pos hck] at h'
        rw [replaceAll] at h'
        rcases mem_replaceAllF _ _ _ _ _ h' with hv | hl
        · exact Or.inr ⟨kv, by simp, hv⟩
        · exact Or.inl hl
      · rw [if_neg hck] at h'
        exact Or.inl h'
    · rcases h' with ⟨kv', hkv', hc⟩
      exact Or.inr ⟨kv', by simp [hkv'], hc⟩

theorem applySynonyms_stable (l : List Char)
    (hl : ∀ c ∈ l, Char.toLower c = c) :
    ∀ c ∈ applySynonyms l, Char.toLower c = c := by
  intro c hc
  rcases mem_synFold TITLE_SYNONYMS l c hc with h | ⟨kv, hkv, hv⟩
  · exact hl c h
  · exact (by decide :
      ∀ kv ∈ TITLE_SYNONYMS, ∀ c ∈ kv.2.data, Char.toLower c = c) kv hkv c hv

theorem mem_punctToSpace {l : List Char} {c : Char} (h : c ∈ punctToSpace l) :
    c ∈ l ∨ c = ' ' := by
  rcases List.mem_map.1 h with ⟨d, hd, rfl⟩
  by_cases hk : keptPunct d = true
  · rw [if_pos hk]
    exact Or.inl hd
  · rw [if_neg hk]
    exact Or.inr rfl

theorem punct_kept (l : List Char) : ∀ c ∈ punctToSpace l, keptPunct c = true := by
  intro c hc
  rcases List.mem_map.1 hc with ⟨d, _, rfl⟩
  by_cases hk : keptPunct d = true
  · rwa [if_pos hk]
  · rw [if_neg hk]
    decide

theorem mem_collapseWsGo :
    ∀ (p : Bool) (l : List Char) (c : Char),
      c ∈ collapseWsGo p l → c ∈ l ∨ c = ' ' := by
  intro p l
  induction l generalizing p with
  | nil =>
    intro c hc
    simp [collapseWsGo] at hc
  | cons a as ih =>
    intro c hc
    rw [collapseWsGo] at hc
    by_cases hwa : pyIsSpace a = true
    · rw [if_pos hwa] at hc
      cases p with
      | true =>
        rcases ih true c hc with h | h
        · exact Or.inl (List.mem_cons_of_mem a h)
        · exact Or.inr h
      | false =>
        rcases List.mem_cons.1 hc with rfl | h
        · exact Or.inr rfl
        · rcases ih true c h with h' | h'
          · exact Or.inl (List.mem_cons_of_mem a h')
          · exact Or.inr h'
    · rw [if_neg hwa] at hc
      rcases List.mem_cons.1 hc with rfl | h
      · exact Or.inl (List.mem_cons_self _ _)
      · rcases ih false c h with h' | h'
        · exact Or.inl (List.mem_cons_of_mem a h')
        · exact Or.inr h'

theorem collapse_ws_only :
    ∀ (p : Bool) (l : List Char) (c : Char),
      c ∈ collapseWsGo p l → pyIsSpace c = true → c = ' ' := by
  intro p l
  induction l generalizing p with
  | nil =>
    intro c hc
    simp [collapseWsGo] at hc
  | cons a as ih =>
    intro c hc hws
    rw [collapseWsGo] at hc
    by_cases hwa : pyIsSpace a = true
    · rw [if_pos hwa] at hc
      cases p with
      | true => exact ih true c hc hws
      | false =>
        rcases List.mem_cons.1 hc with rfl | h
        · rfl
        · exact ih true c h hws
    · rw [if_neg hwa] at hc
      rcases List.mem_cons.1 hc with rfl | h
      · exact absurd hws hwa
      · exact ih false c h hws

theorem collapse_go_true_head :
    ∀ (l : List Char) (c : Char),
      (collapseWsGo true l).head? = some c → pyIsSpace c = false := by
  intro l
  induction l with
  | nil =>
    intro c hc
    simp [collapseWsGo] at hc
  | cons a as ih =>
    intro c hc
    rw [collapseWsGo] at hc
    by_cases hwa : pyIsSpace a = true
    · rw [if_pos hwa] at hc
      exact ih c hc
    · rw [if_neg hwa] at hc
      rw [List.head?_cons, Option.some.injEq] at hc
      rw [← hc]
      exact Bool.not_eq_true _ ▸ hwa

theorem collapse_chain :
    ∀ (p : Bool) (l : List Char),
      List.Chain' (fun a b => ¬(pyIsSpace a = true ∧ pyIsSpace b = true))
        (collapseWsGo p l) := by
  intro p l
  induction l generalizing p with
  | nil => simp [collapseWsGo]
  | cons a as ih =>
    rw [collapseWsGo]
    by_cases hwa : pyIsSpace a = true
    · rw [if_pos hwa]
      cases p with
      | true => exact ih true
      | false =>
        rw [if_neg Bool.false_ne_true, List.chain'_cons']
        refine ⟨?_, ih true⟩
        intro b hb
        have := collapse_go_true_head as b hb
        simp [this]
    · rw [if_neg hwa]
      rw [List.chain'_cons']
      refine ⟨?_, ih false⟩
      intro b _ hab
      exact hwa hab.1

theorem collapse_go_id (l : List Char)
    (hws : ∀ c ∈ l, pyIsSpace c = true → c = ' ')
    (hch : List.Chain' (fun a b => ¬(pyIsSpace a = true ∧ pyIsSpace b = true)) l) :
    collapseWsGo false l = l ∧
      ((∀ c ∈ l.head?, pyIsSpace c = false) → collapseWsGo true l = l) := by
  induction l with
  | nil => exact ⟨rfl, fun _ => rfl⟩
  | cons a as ih =>
    have hws' : ∀ c ∈ as, pyIsSpace c = true → c = ' ' := fun c hc =>
      hws c (List.mem_cons_of_mem a hc)
    have hch' := (List.chain'_cons'.1 hch).2
    have hrel := (List.chain'_cons'.1 hch).1
    have ih' := ih hws' hch'
    by_cases hwa : pyIsSpace a = true
    · have ha' : a = ' ' := hws a (List.mem_cons_self _ _) hwa
      have hhead : ∀ c ∈ as.head?, pyIsSpace c = false := by
        intro b hb
        have h := hrel b hb
        by_contra hb'
        rw [Bool.not_eq_false] at hb'
        exact h ⟨hwa, hb'⟩
      have htrue := ih'.2 hhead
      constructor
      · rw [collapseWsGo, if_pos hwa, htrue, ha']
        simp
      · intro hh
        exact absurd (hh a rfl) (by simp [hwa])
    · constructor
      · rw [collapseWsGo, if_neg hwa, ih'.1]
      · intro _
        rw [collapseWsGo, if_neg hwa, ih'.1]

theorem dropWhile_head_false (p : Char → Bool) :
    ∀ (l : List Char) (c : Char), (l.dropWhile p).head? = some c → p c = false := by
  intro l
  induction l with
  | nil =>
    intro c hc
    simp at hc
  | cons a as ih =>
    intro c hc
    rw [List.dropWhile_cons] at hc
    split at hc
    · exact ih c hc
    · next hpa =>
      rw [List.head?_cons, Option.some.injEq] at hc
      rw [← hc]
      exact Bool.not_eq_true _ ▸ hpa

theorem pyStrip_last_ws (l : List Char) :
    ∀ c ∈ (pyStrip l).getLast?, pyIsSpace c = false := by
  intro c hc
  unfold pyStrip at hc
  rw [List.getLast?_reverse] at hc
  exact dropWhile_head_false _ _ c hc

theorem pyStrip_head_ws (l : List Char) :
    ∀ c ∈ (pyStrip l).head?, pyIsSpace c = false := by
  intro c hc
  rw [Option.mem_def] at hc
  unfold pyStrip at hc
  rw [List.head?_reverse] at hc
  rcases List.dropWhile_suffix
    (l := (l.dropWhile pyIsSpace).reverse) pyIsSpace with ⟨t, ht⟩
  have hra : (l.dropWhile pyIsSpace).reverse.getLast? = some c := by
    rw [← ht, List.getLast?_append, hc]
    rfl
  rw [List.getLast?_reverse] at hra
  exact dropWhile_head_false _ _ c hra

theorem pyStrip_id (l : List Char)
    (hh : ∀ c ∈ l.head?, pyIsSpace c = false)
    (hl : ∀ c ∈ l.getLast?, pyIsSpace c = false) : pyStrip l = l := by
  unfold pyStrip
  have h1 : l.dropWhile pyIsSpace = l := by
    cases l with
    | nil => rfl
    | cons a as =>
      rw [List.dropWhile_cons, if_neg]
      rw [hh a rfl]
      simp
  rw [h1]
  have h2 : l.reverse.dropWhile pyIsSpace = l.reverse := by
    cases hrev : l.reverse with
    | nil => rfl
    | cons a as =>
      have ha : l.getLast? = some a := by
        rw [List.getLast?_eq_head?_reverse, hrev, List.head?_cons]
      rw [List.dropWhile_cons, if_neg]
      rw [hl a ha]
      simp
  rw [h2, List.reverse_reverse]

theorem lowerL_id (l : List Char) (h : ∀ c ∈ l, Char.toLower c = c) :
    lowerL l = l := by
  induction l with
  | nil => rfl
  | cons a as ih =>
    unfold lowerL at *
    rw [List.map_cons, h a (List.mem_cons_self _ _),
      ih (fun c hc => h c (List.mem_cons_of_mem a hc))]

theorem punct_id (l : List Char) (h : ∀ c ∈ l, keptPunct c = true) :
    punctToSpace l = l := by
  induction l with
  | nil => rfl
  | cons a as ih =>
    unfold punctToSpace at *
    rw [List.map_cons, if_pos (h a (List.mem_cons_self _ _)),
      ih (fun c hc => h c (List.mem_cons_of_mem a hc))]

theorem pyStrip_chain (u : List Char)
    (h : List.Chain' (fun a b => ¬(pyIsSpace a = true ∧ pyIsSpace b = true)) u) :
    List.Chain' (fun a b => ¬(pyIsSpace a = true ∧ pyIsSpace b = true))
      (pyStrip u) := by
  unfold pyStrip
  have h1 := h.suffix (List.dropWhile_suffix pyIsSpace)
  have h2 : List.Chain' (fun a b => ¬(pyIsSpace a = true ∧ pyIsSpace b = true))
      (u.dropWhile pyIsSpace).reverse :=
    List.chain'_reverse.mpr (h1.imp (fun a b hab hba => hab ⟨hba.2, hba.1⟩))
  have h3 := h2.suffix (List.dropWhile_suffix pyIsSpace)
  exact List.chain'_reverse.mpr (h3.imp (fun a b hab hba => hab ⟨hba.2, hba.1⟩))

set_option maxHeartbeats 2000000 in
/-- C4 counterexample: `normalize_title` is not idempotent. On `swe`, the
substitution `swe → software engineer` feeds the later rule
`software eng → software engineer` in the same pass, and every further
pass grows the string again. -/
theorem normalize_title_not_idempotent :
    normalize_title (normalize_title "swe") ≠ normalize_title "swe" ∧
    normalize_title "swe" = "software engineerineer" ∧
    normalize_title (normalize_title "swe") = "software engineerineerineer" := by
  decide

set_option maxHeartbeats 4000000 in
/-- C4 amended: `normalize_title` is idempotent exactly on the inputs
whose normalized form is left unchanged by a further synonym-substitution
pass: if `applySynonyms` fixes `normalize_title x`, then
`normalize_title (normalize_title x) = normalize_title x`. (In general
idempotence fails, see the counterexample: a synonym value may contain a
later key.) -/
theorem normalize_title_idem_of_synonyms_fixed (x : String)
    (h : applySynonyms (normalize_title x).data = (normalize_title x).data) :
    normalize_title (normalize_title x) = normalize_title x := by
  by_cases hx : x.data.isEmpty = true
  · have hxe : normalize_title x = "" := by
      unfold normalize_title
      rw [if_pos hx]
    rw [hxe]
    decide
  · have hydata : (normalize_title x).data =
        pyStrip (collapseWs (punctToSpace (applySynonyms (lowerL x.data)))) := by
      unfold normalize_title
      rw [if_neg hx]
    have hstable : ∀ c ∈ (normalize_title x).data, Char.toLower c = c := by
      intro c hc
      rw [hydata] at hc
      have hc1 := mem_pyStrip hc
      rcases mem_collapseWsGo false _ c hc1 with hc2 | rfl
      · rcases mem_punctToSpace hc2 with hc3 | rfl
        · exact applySynonyms_stable _ (lowerL_stable x.data) c hc3
        · decide
      · decide
    have hkept : ∀ c ∈ (normalize_title x).data, keptPunct c = true := by
      intro c hc
      rw [hydata] at hc
      have hc1 := mem_pyStrip hc
      rcases mem_collapseWsGo false _ c hc1 with hc2 | rfl
      · exact punct_kept _ c hc2
      · decide
    obtain ⟨z, hz⟩ : ∃ z, punctToSpace (applySynonyms (lowerL x.data)) = z :=
      ⟨_, rfl⟩
    rw [hz] at hydata
    obtain ⟨y, hy⟩ : ∃ y, normalize_title x = y := ⟨_, rfl⟩
    rw [hy] at h hydata hstable hkept ⊢
    have hws : ∀ c ∈ y.data, pyIsSpace c = true → c = ' ' := by
      intro c hc
      rw [hydata] at hc
      exact collapse_ws_only false z c (mem_pyStrip hc)
    have hchain : List.Chain'
        (fun a b => ¬(pyIsSpace a = true ∧ pyIsSpace b = true)) y.data := by
      rw [hydata]
      exact pyStrip_chain _ (collapse_chain false z)
    have hhead : ∀ c ∈ y.data.head?, pyIsSpace c = false := by
      rw [hydata]
      exact pyStrip_head_ws _
    have hlast : ∀ c ∈ y.data.getLast?, pyIsSpace c = false := by
      rw [hydata]
      exact pyStrip_last_ws _
    have s1 : lowerL y.data = y.data := lowerL_id _ hstable
    have s3 : punctToSpace y.data = y.data := punct_id _ hkept
    have s4 : collapseWs y.data = y.data := (collapse_go_id y.data hws hchain).1
    have s5 : pyStrip y.data = y.data := pyStrip_id _ hhead hlast
    by_cases hyd : y.data.isEmpty = true
    · rw [List.isEmpty_iff] at hyd
      have hy0 : y = "" := by
        have : y = ⟨y.data⟩ := rfl
        rw [this, hyd]
      rw [hy0]
      decide
    · unfold normalize_title
      rw [if_neg hyd, s1, h, s3, s4, s5]

set_option maxHeartbeats 2000000 in
/-- C4 amended witness: a title whose normalized form no synonym rule
touches again. -/
theorem normalize_title_idem_witness :
    normalize_title (normalize_title "Senior Developer!") =
      normalize_title "Senior Developer!" :=
  normalize_title_idem_of_synonyms_fixed "Senior Developer!" (by decide)

/-! ### Salary estimation (`salary_range_around`, `_compact_salary_number`
in `app/models/db.py`; the estimation block of `index` in `app/app.py`) -/

/-- `⌊q⌋` (floor; Python's `//` on floats applied to exact rationals). -/
def ratFloor (q : ℚ) : ℤ :=
  ⌊q⌋

/-- Python `int()` on a float: truncation toward zero. -/
def pyInt (q : ℚ) : ℤ :=
  if 0 ≤ q then ⌊q⌋ else ⌈q⌉

/-- Python `round()` to an integer: nearest, ties to even. -/
def pyRound (q : ℚ) : ℤ :=
  let f := ratFloor q
  let r := q - f
  if r < 1/2 then f
  else if 1/2 < r then f + 1
  else if 2 ∣ f then f else f + 1

/-- Render `scaled / 10` the way Python prints a one-decimal float
(`round(m, 1)` always has one decimal digit here). -/
def oneDecimalStr (scaled : ℤ) : String :=
  if scaled < 0 then
    "-" ++ toString ((-scaled).tdiv 10) ++ "." ++ toString ((-scaled).tmod 10)
  else toString (scaled.tdiv 10) ++ "." ++ toString (scaled.tmod 10)

/-- `_compact_salary_number` from `app/models/db.py`: `"{n}"` under 1000,
`"{k}k"` (thousands rounded to the nearest 10) under a million, else
`"{m}M"` with one decimal, dropped when exact. Python's `round` is
ties-to-even; `round(m, 1)` is modelled as exact decimal rounding. -/
def compactSalaryNumber (n : ℚ) : String :=
  if n < 1000 then toString (pyRound n)
  else
    let k := pyRound (n / 1000)
    if k < 1000 then
      let kr := pyRound ((k : ℚ) / 10) * 10
      let kr := if kr ≤ 0 then max 1 k else kr
      toString kr ++ "k"
    else
      let m := n / 1000000
      let scaled := pyRound (m * 10)
      if scaled.tmod 10 = 0 then toString (scaled.tdiv 10) ++ "M"
      else oneDecimalStr scaled

/-- The helper `_round_floor_10k` inside `salary_range_around`. -/
def roundFloor10k (x : ℚ) : ℤ :=
  if x < 1000 then pyInt x
  else
    let k := ratFloor (x / 1000)
    let kf := k.fdiv 10 * 10
    let kf := if kf ≤ 0 then max 1 k else kf
    kf * 1000

/-- The helper `_round_ceil_10k` inside `salary_range_around`. -/
def roundCeil10k (x : ℚ) : ℤ :=
  if x < 1000 then pyInt x
  else
    let k := ratFloor ((x + 999) / 1000)
    let kc := (k + 9).fdiv 10 * 10
    let kc := if kc ≤ 0 then max 1 k else kc
    kc * 1000

/-- `salary_range_around` from `app/models/db.py`: `None` median gives
`None`; otherwise the ±`pct` range, the low bound floored and the high
bound ceiled on the 10k grid, with their compact display strings. -/
def salary_range_around (median : Option ℚ) (pct : ℚ) :
    Option (ℤ × ℤ × String × String) :=
  match median with
  | none => none
  | some m =>
    let low := m * (1 - pct)
    let high := m * (1 + pct)
    let lowR := roundFloor10k low
    let highR := roundCeil10k high
    some (lowR, highR, compactSalaryNumber (lowR : ℚ), compactSalaryNumber (highR : ℚ))

/-- `TITLE_BUCKET2_KEYWORDS` from `app/app.py` (10% uplift bucket). -/
def TITLE_BUCKET2_KEYWORDS : List String :=
  ["principal", "staff", "lead ", "lead-", "head of", "director"]

/-- `TITLE_BUCKET1_KEYWORDS` from `app/app.py` (5% uplift bucket). -/
def TITLE_BUCKET1_KEYWORDS : List String :=
  ["senior", "sr ", "sr.", "expert"]

/-- The uplift factor chosen in `index` (`app/app.py`): 1.10 when the
lowercased title contains a bucket-2 keyword, else 1.05 for bucket-1,
else 1.0. -/
def upliftFactor (title : String) : ℚ :=
  let titleLc := lowerL title.data
  if TITLE_BUCKET2_KEYWORDS.any (fun k => containsSub k.data titleLc) then 1.10
  else if TITLE_BUCKET1_KEYWORDS.any (fun k => containsSub k.data titleLc) then 1.05
  else 1.0

/-- The salary-estimation block of `index` (`app/app.py`, the
`if median is not None:` body): returns
(uplift factor, `estimated_salary_range_numeric`,
`estimated_salary_range_compact`). When an uplift applies, the uplift
amount `median * (factor - 1)` is added to both rounded base bounds and
the sums are passed directly to `_compact_salary_number`; without an
uplift the base range and its precomputed strings are used. -/
def estimateSalary (median : Option ℚ) (title : String) :
    ℚ × Option (ℤ × ℤ) × Option String :=
  match median with
  | none => (1.0, none, none)
  | some m =>
    let f := upliftFactor title
    match salary_range_around (some m) 0.2 with
    | none => (f, none, none)
    | some (bl, bh, bls, bhs) =>
      if 1 < f then
        let amt := m * (f - 1)
        let adjLow := (bl : ℚ) + amt
        let adjHigh := (bh : ℚ) + amt
        (f, some (pyInt adjLow, pyInt adjHigh),
          some (compactSalaryNumber adjLow ++ "–" ++ compactSalaryNumber adjHigh))
      else (f, some (bl, bh), some (bls ++ "–" ++ bhs))

/-- The basis of the salary-floor post-filter in `index` (`app/app.py`):
the estimated range's high end when available, else the raw median. -/
def floorFilterBasis (rangeCompact : Option (ℤ × ℤ)) (median : Option ℚ) :
    Option ℚ :=
  match rangeCompact with
  | some p => some (p.2 : ℚ)
  | none => median

/-- The salary-floor post-filter of `index` (`app/app.py`):
`if sal_floor and sal_floor >= 100000:` drop the row when the basis is
absent or strictly below the floor. Returns `true` when the row is kept. -/
def keepRowForFloor (salFloor : Option ℕ) (rangeCompact : Option (ℤ × ℤ))
    (median : Option ℚ) : Bool :=
  match salFloor with
  | none => true
  | some f =>
    if f ≠ 0 ∧ 100000 ≤ f then
      match floorFilterBasis rangeCompact median with
      | none => false
      | some b => decide ((f : ℚ) ≤ b)
    else true

example : salary_range_around (some 100000) 0.2 =
    some (80000, 120000, "80k", "120k") := by
  have fd80 : Int.fdiv 80 10 = 8 := by decide
  have fd129 : Int.fdiv 129 10 = 12 := by decide
  norm_num [salary_range_around, roundFloor10k, roundCeil10k, compactSalaryNumber,
    pyRound, pyInt, ratFloor, fd80, fd129] <;> decide

example : estimateSalary (some 100000) "Senior Engineer" =
    (1.05, some (85000, 125000), some ("80k–120k")) := by
  have h2 : (TITLE_BUCKET2_KEYWORDS.any
      fun k => containsSub k.data (lowerL "Senior Engineer".data)) = false := by decide
  have h1 : (TITLE_BUCKET1_KEYWORDS.any
      fun k => containsSub k.data (lowerL "Senior Engineer".data)) = true := by decide
  have fd80 : Int.fdiv 80 10 = 8 := by decide
  have fd129 : Int.fdiv 129 10 = 12 := by decide
  norm_num [estimateSalary, salary_range_around, upliftFactor, h1, h2, fd80, fd129,
    roundFloor10k, roundCeil10k, compactSalaryNumber, pyRound, pyInt, ratFloor] <;>
    decide

example : salary_range_around (some 0) 0.2 = some (0, 0, "0", "0") := by
  norm_num [salary_range_around, roundFloor10k, roundCeil10k, compactSalaryNumber,
    pyRound, pyInt, ratFloor] <;> decide

example : estimateSalary (some 0) "dev" = (1.0, some (0, 0), some "0–0") := by
  have h2 : (TITLE_BUCKET2_KEYWORDS.any
      fun k => containsSub k.data (lowerL "dev".data)) = false := by decide
  have h1 : (TITLE_BUCKET1_KEYWORDS.any
      fun k => containsSub k.data (lowerL "dev".data)) = false := by decide
  norm_num [estimateSalary, salary_range_around, upliftFactor, h1, h2,
    roundFloor10k, roundCeil10k, compactSalaryNumber, pyRound, pyInt, ratFloor] <;>
    decide

example : keepRowForFloor (some 100000) (some (80000, 100000)) none = true := by
  norm_num [keepRowForFloor, floorFilterBasis]

/-! ### The result caches (`Job._cache_*` in `app/models/db.py`)

A Python dict is an association list with pairwise-distinct keys in
insertion order; `time.time()` is an explicit `now : ℚ`. -/

/-- Dict lookup: the value stored at `k`, if any. -/
def dictGet {κ α : Type} [DecidableEq κ] (m : List (κ × α)) (k : κ) : Option α :=
  (m.find? (fun e => e.1 = k)).map (fun e => e.2)

/-- Dict assignment `m[k] = v`: overwrite in place when the key exists
(Python keeps its position), else append. -/
def dictSet {κ α : Type} [DecidableEq κ] (m : List (κ × α)) (k : κ) (v : α) :
    List (κ × α) :=
  if m.any (fun e => e.1 = k) then
    m.map (fun e => if e.1 = k then (k, v) else e)
  else m ++ [(k, v)]

/-- `Job._CACHE_TTL` (seconds). -/
def CACHE_TTL : ℚ := 30

/-- `Job._CACHE_MAX`. -/
def CACHE_MAX : ℕ := 128

/-- `Job._cache_prune`: if the dict is over capacity, sort the entries by
stored timestamp (Python's `sorted` on `kv[1][0]`) and pop the keys of the
oldest `len - _CACHE_MAX` entries. -/
def cachePrune {κ α : Type} [DecidableEq κ] (m : List (κ × ℚ × α)) :
    List (κ × ℚ × α) :=
  if m.length ≤ CACHE_MAX then m
  else
    let oldest := (m.mergeSort (fun e₁ e₂ => e₁.2.1 ≤ e₂.2.1)).take
      (m.length - CACHE_MAX)
    m.filter (fun e => !oldest.any (fun o => o.1 = e.1))

/-- `Job._cache_get_count` / `Job._cache_get_search`: return the stored
value while `now - storedAt < _CACHE_TTL`, else a miss. -/
def cacheGet {κ α : Type} [DecidableEq κ] (m : List (κ × ℚ × α)) (now : ℚ)
    (k : κ) : Option α :=
  match dictGet m k with
  | some (t, v) => if now - t < CACHE_TTL then some v else none
  | none => none

/-- `Job._cache_set_count` / `Job._cache_set_search`: store
`(now, value)` at the key, then prune. -/
def cacheSet {κ α : Type} [DecidableEq κ] (m : List (κ × ℚ × α)) (k : κ)
    (now : ℚ) (v : α) : List (κ × ℚ × α) :=
  cachePrune (dictSet m k (now, v))

/-- A row mapping as returned by `Job.search` (column name to value). -/
abbrev RowMap : Type := List (String × String)

/-- The count cache `Job._cache_count`, keyed by (title, country). -/
abbrev CountCache : Type := List ((String × String) × ℚ × ℤ)

/-- The search cache `Job._cache_search`, keyed by
(title, country, limit, offset). -/
abbrev SearchCache : Type := List ((String × String × ℤ × ℤ) × ℚ × List RowMap)

/-- `Job._cache_get_count`. -/
def cacheGetCount (m : CountCache) (now : ℚ) (k : String × String) : Option ℤ :=
  cacheGet m now k

/-- `Job._cache_set_count`. -/
def cacheSetCount (m : CountCache) (k : String × String) (now : ℚ) (v : ℤ) :
    CountCache :=
  cacheSet m k now v

/-- `Job._cache_get_search`. -/
def cacheGetSearch (m : SearchCache) (now : ℚ) (k : String × String × ℤ × ℤ) :
    Option (List RowMap) :=
  cacheGet m now k

/-- `Job._cache_set_search`. -/
def cacheSetSearch (m : SearchCache) (k : String × String × ℤ × ℤ) (now : ℚ)
    (v : List RowMap) : SearchCache :=
  cacheSet m k now v

/-! ### Predicate builder (`Job._where`, `Job._country_patterns`,
`Job._escape_like` in `app/models/db.py`)

The builder produces SQL text with `%s` (pg) and `?` (sqlite) placeholders
and, separately, the parameter lists. Strings are built as `List Char`. -/

/-- `Job._normalize_title`: `(value or "").strip().lower()`. -/
def jobNormalizeTitle (l : List Char) : List Char :=
  lowerL (pyStrip l)

/-- `Job._escape_like`: escape `\`, `%` and `_` for a LIKE pattern. -/
def escape_like (l : List Char) : List Char :=
  replaceAll ['_'] ['\\', '_']
    (replaceAll ['%'] ['\\', '%'] (replaceAll ['\\'] ['\\', '\\'] l))

/-- `f"%{Job._escape_like(text)}%"`: a substring LIKE pattern. -/
def likePat (l : List Char) : List Char :=
  '%' :: escape_like l ++ ['%']

/-- Python `str.split()` (no argument): split on whitespace runs,
discarding empties. Fuel (the text's length) keeps the recursion
structural. -/
def pySplitF : ℕ → List Char → List (List Char)
  | 0, _ => []
  | fuel + 1, l =>
    match l.dropWhile pyIsSpace with
    | [] => []
    | c :: cs =>
      (c :: cs.takeWhile (fun x => !pyIsSpace x)) ::
        pySplitF fuel (cs.dropWhile (fun x => !pyIsSpace x))

/-- Python `str.split()` (see `pySplitF`). -/
def pySplit (l : List Char) : List (List Char) :=
  pySplitF l.length l

/-- Python `sep.join(parts)`. -/
def joinSep (sep : List Char) : List (List Char) → List Char
  | [] => []
  | [x] => x
  | x :: y :: rest => x ++ sep ++ joinSep sep (y :: rest)

/-- The number of `%s` placeholders in a pg-style SQL fragment. -/
def phCount : List Char → ℕ
  | [] => 0
  | c :: rest => (if c = '%' ∧ rest.head? = some 's' then 1 else 0) + phCount rest

/-- The number of `?` placeholders in a sqlite-style SQL fragment. -/
def qmCount (l : List Char) : ℕ :=
  l.countP (fun c => c = '?')

/-- The four SQL fragments built by `Job._where`, in construction order. -/
structure WhereParts where
  clauses_pg : List (List Char)
  clauses_sqlite : List (List Char)
  params_pg : List (List Char)
  params_sqlite : List (List Char)

/-- No clauses, no parameters. -/
def WhereParts.empty : WhereParts :=
  ⟨[], [], [], []⟩

/-- Sequential appending of two stretches of the builder's loop. -/
def WhereParts.app (a b : WhereParts) : WhereParts :=
  ⟨a.clauses_pg ++ b.clauses_pg, a.clauses_sqlite ++ b.clauses_sqlite,
    a.params_pg ++ b.params_pg, a.params_sqlite ++ b.params_sqlite⟩

/-- The core-phrase clause (pg dialect), from `Job._where`. -/
def coreClausePg : List Char :=
  "(job_title_norm ILIKE %s ESCAPE '\\' OR LOWER(job_title) LIKE %s ESCAPE '\\' OR LOWER(job_description) LIKE %s ESCAPE '\\')".data

/-- The core-phrase clause (sqlite dialect), from `Job._where`. -/
def coreClauseSqlite : List Char :=
  "(job_title_norm LIKE ? ESCAPE '\\' OR LOWER(job_title) LIKE ? ESCAPE '\\' OR LOWER(job_description) LIKE ? ESCAPE '\\')".data

/-- The `remote` clause (pg dialect), from `Job._where`. -/
def remoteClausePg : List Char :=
  "(job_title_norm ILIKE %s ESCAPE '\\' OR LOWER(job_title) LIKE %s ESCAPE '\\' OR LOWER(job_description) LIKE %s ESCAPE '\\' OR LOWER(location) LIKE %s ESCAPE '\\')".data

/-- The `remote` clause (sqlite dialect), from `Job._where`. -/
def remoteClauseSqlite : List Char :=
  "(job_title_norm LIKE ? ESCAPE '\\' OR LOWER(job_title) LIKE ? ESCAPE '\\' OR LOWER(job_description) LIKE ? ESCAPE '\\' OR LOWER(location) LIKE ? ESCAPE '\\')".data

/-- `dev_terms` from `Job._where`. -/
def devTerms : List String :=
  ["developer", "programmer", "coder", "software developer", "software engineer"]

/-- The three per-term fragments of the developer clause (pg dialect). -/
def devFragsPg : List (List Char) :=
  ["job_title_norm ILIKE %s ESCAPE '\\'".data,
   "LOWER(job_title) LIKE %s ESCAPE '\\'".data,
   "LOWER(job_description) LIKE %s ESCAPE '\\'".data]

/-- The three per-term fragments of the developer clause (sqlite dialect). -/
def devFragsSqlite : List (List Char) :=
  ["job_title_norm LIKE ? ESCAPE '\\'".data,
   "LOWER(job_title) LIKE ? ESCAPE '\\'".data,
   "LOWER(job_description) LIKE ? ESCAPE '\\'".data]

/-- The developer clause (pg dialect): the loop of `Job._where` extends the
fragment list once per term, then wraps the OR-join in parentheses. -/
def devClausePg : List Char :=
  '(' :: joinSep " OR ".data (devTerms.foldl (fun acc _ => acc ++ devFragsPg) []) ++
    [')']

/-- The developer clause (sqlite dialect). -/
def devClauseSqlite : List Char :=
  '(' :: joinSep " OR ".data
    (devTerms.foldl (fun acc _ => acc ++ devFragsSqlite) []) ++ [')']

/-- The developer-clause parameters: each term's pattern three times, in
term order. -/
def devParams : List (List Char) :=
  (devTerms.map (fun t => likePat t.data)).foldl (fun acc p => acc ++ [p, p, p]) []

/-- The core-phrase clause group of `Job._where` (`if core_query:`). -/
def corePartsOf (core_query : List Char) : WhereParts :=
  if core_query.isEmpty then .empty else
    let like := likePat core_query
    ⟨[coreClausePg], [coreClauseSqlite], [like, like, like], [like, like, like]⟩

/-- The `remote` clause group of `Job._where` (`if remote_flag:`). -/
def remotePartsOf (remote_flag : Bool) : WhereParts :=
  if remote_flag then
    let rl := likePat "remote".data
    ⟨[remoteClausePg], [remoteClauseSqlite], [rl, rl, rl, rl], [rl, rl, rl, rl]⟩
  else .empty

/-- The `developer` clause group of `Job._where` (`if developer_flag:`). -/
def devPartsOf (developer_flag : Bool) : WhereParts :=
  if developer_flag then ⟨[devClausePg], [devClauseSqlite], devParams, devParams⟩
  else .empty

/-- The tokens of the normalized title, `t_norm.split()`. -/
def titleTokens (title : String) : List (List Char) :=
  pySplit (jobNormalizeTitle title.data)

/-- The core query of `Job._where`: the non-modifier tokens rejoined,
`" ".join(core_tokens).strip()`. -/
def coreQueryOf (tokens : List (List Char)) : List Char :=
  pyStrip (joinSep [' ']
    (tokens.filter (fun tok => !(tok == "remote".data || tok == "developer".data))))

/-- The title half of `Job._where` (`if title:` block): the core phrase,
`remote` and `developer` are split off as modifiers; each present group
contributes one ANDed clause. -/
def titlePart (title : String) : WhereParts :=
  if title.data.isEmpty then .empty else
  if (jobNormalizeTitle title.data).isEmpty then .empty else
  let tokens := titleTokens title
  (corePartsOf (coreQueryOf tokens)).app
    ((remotePartsOf (tokens.contains "remote".data)).app
      (devPartsOf (tokens.contains "developer".data)))

/-- `COUNTRY_NORM` from `app/models/db.py`, in insertion order (the second
key for Austria is the source's own mojibake, kept verbatim). -/
def COUNTRY_NORM : List (String × String) :=
  [("deutschland", "DE"), ("germany", "DE"), ("deu", "DE"), ("de", "DE"),
   ("switzerland", "CH"), ("schweiz", "CH"), ("suisse", "CH"), ("svizzera", "CH"),
   ("ch", "CH"),
   ("austria", "AT"), ("Ã¶sterreich", "AT"), ("at", "AT"),
   ("europe", "EU"), ("eu", "EU"), ("eur", "EU"), ("european union", "EU"),
   ("uk", "UK"), ("gb", "UK"), ("england", "UK"), ("united kingdom", "UK"),
   ("usa", "US"), ("united states", "US"), ("america", "US"), ("us", "US"),
   ("spain", "ES"), ("es", "ES"), ("france", "FR"), ("fr", "FR"),
   ("italy", "IT"), ("it", "IT"),
   ("netherlands", "NL"), ("nl", "NL"), ("belgium", "BE"), ("be", "BE"),
   ("sweden", "SE"), ("se", "SE"),
   ("poland", "PL"), ("colombia", "CO"), ("mexico", "MX"),
   ("portugal", "PT"), ("ireland", "IE"), ("denmark", "DK"), ("finland", "FI"),
   ("greece", "GR"),
   ("hungary", "HU"), ("romania", "RO"), ("slovakia", "SK"), ("slovenia", "SI"),
   ("bulgaria", "BG"),
   ("croatia", "HR"), ("cyprus", "CY"), ("czech republic", "CZ"),
   ("czechia", "CZ"), ("estonia", "EE"),
   ("latvia", "LV"), ("lithuania", "LT"), ("luxembourg", "LU"), ("malta", "MT"),
   ("india", "IN"), ("bharat", "IN"), ("in", "IN")]

/-- `LOCATION_COUNTRY_HINTS` from `app/models/db.py`, in insertion order. -/
def LOCATION_COUNTRY_HINTS : List (String × String) :=
  [("amsterdam", "NL"), ("atlanta", "US"), ("austin", "US"), ("barcelona", "ES"),
   ("belgium", "BE"), ("berlin", "DE"), ("berlin, de", "DE"), ("boston", "US"),
   ("brussels", "BE"), ("budapest", "HU"), ("charlotte", "US"), ("chicago", "US"),
   ("copenhagen", "DK"), ("dallas", "US"), ("denmark", "DK"), ("denver", "US"),
   ("dublin", "IE"), ("france", "FR"), ("frankfurt", "DE"), ("germany", "DE"),
   ("hamburg", "DE"), ("houston", "US"), ("italy", "IT"), ("lisbon", "PT"),
   ("london", "UK"), ("los angeles", "US"), ("los", "US"), ("madrid", "ES"),
   ("miami", "US"), ("milan", "IT"), ("minneapolis", "US"), ("munich", "DE"),
   ("netherlands", "NL"), ("new york", "US"), ("oslo", "NO"), ("paris", "FR"),
   ("philadelphia", "US"), ("phoenix", "US"), ("pittsburgh", "US"),
   ("portland", "US"), ("porto", "PT"), ("portugal", "PT"), ("prague", "CZ"),
   ("raleigh", "US"), ("salt lake city", "US"), ("salt", "US"),
   ("san francisco", "US"), ("seattle", "US"), ("spain", "ES"),
   ("stockholm", "SE"), ("switzerland", "CH"), ("tallinn", "EE"), ("uk", "UK"),
   ("vienna", "AT"), ("washington", "US"), ("zurich", "CH"),
   ("bangalore", "IN"), ("bengaluru", "IN"), ("mumbai", "IN"), ("pune", "IN"),
   ("delhi", "IN"), ("new delhi", "IN"), ("gurgaon", "IN"), ("gurugram", "IN"),
   ("noida", "IN"), ("hyderabad", "IN"), ("chennai", "IN"), ("kolkata", "IN"),
   ("ahmedabad", "IN")]

/-- `Job._EU_CODES` (and `_EU_FILTER_CODES`, its copy), in the literal's
order. -/
def EU_FILTER_CODES : List String :=
  ["AT", "BE", "BG", "HR", "CY", "CZ", "DK", "EE", "FI", "FR", "DE", "GR",
   "HU", "IE", "IT", "LV", "LT", "LU", "MT", "NL", "PL", "PT", "RO", "SK",
   "SI", "ES", "SE"]

/-- The EU hub list of `Job._where`. -/
def euHubs : List String :=
  ["madrid", "paris", "berlin", "barcelona", "milan", "milano"]

/-- The India hub list of `Job._where` (also `india_aliases` of
`_country_patterns` adds `india` and `bharat` to it). -/
def indiaHubs : List String :=
  ["bangalore", "bengaluru", "mumbai", "pune", "delhi", "new delhi", "gurgaon",
   "gurugram", "noida", "hyderabad", "chennai", "kolkata", "ahmedabad"]

/-- `high_pay_cities` from `Job._where`. -/
def highPayCities : List String :=
  ["san francisco", "new york", "zurich", "berlin", "paris", "madrid", "london"]

/-- `columns_to_search` from `Job._where`. -/
def columnsToSearch : List String :=
  ["location", "city", "region", "country"]

/-- Python string `<` (lexicographic by code point). -/
def lexLt : List Char → List Char → Bool
  | [], [] => false
  | [], _ :: _ => true
  | _ :: _, [] => false
  | a :: as, b :: bs =>
    if a.toNat < b.toNat then true
    else if b.toNat < a.toNat then false
    else lexLt as bs

/-- Python `sorted` on strings (any correct sort; the inputs sorted here
are duplicate-free). -/
def sortLex (l : List (List Char)) : List (List Char) :=
  l.mergeSort (fun a b => !lexLt b a)

/-- Keep each string's first occurrence, in order (the `seen` set of
`add_like`, and the conversion of a Python set built by insertions). -/
def dedupKeepFirst (l : List (List Char)) : List (List Char) :=
  l.foldl (fun acc x => if acc.contains x then acc else acc ++ [x]) []

/-- `seps_before` from `Job._country_patterns`. -/
def sepsBefore : List Char :=
  [' ', '(', ',', '/', '-']

/-- `seps_after` from `Job._country_patterns`. -/
def sepsAfter : List Char :=
  [' ', ')', ',', '/', '-']

/-- `india_aliases` from `Job._country_patterns`. The source iterates this
Python set literal, whose order is unspecified; the literal's order is
used (this branch is unreachable from `Job._where`, which handles the
code `IN` before calling `_country_patterns`). -/
def indiaAliases : List String :=
  ["india", "bharat", "bangalore", "bengaluru", "mumbai", "pune", "delhi",
   "new delhi", "gurgaon", "gurugram", "noida", "hyderabad", "chennai",
   "kolkata", "ahmedabad"]

/-- The LIKE patterns one non-`IN` code contributes in
`Job._country_patterns`: `%{b}{token}{a}%` for each separator pair, then
`%{b}{token}`, then `%{token}%` for codes longer than two characters. -/
def codeSepPatterns (code : List Char) : List (List Char) :=
  let token := escape_like (lowerL code)
  (sepsBefore.foldl
    (fun acc b =>
      acc ++ (sepsAfter.map (fun a => '%' :: b :: token ++ [a, '%'])) ++
        ['%' :: b :: token]) []) ++
    (if 2 < code.length then [likePat (lowerL code)] else [])

/-- `Job._country_patterns`: the LIKE patterns (insertion order, first
occurrence kept) and the sorted exact-equality candidates for a set of
country codes. `Job._where` always passes a single code. -/
def country_patterns (codes : List String) : List (List Char) × List (List Char) :=
  let normalized := dedupKeepFirst
    ((codes.filter (fun c => c.data ≠ [])).map (fun c => upperL c.data))
  let perCode := normalized.foldl
    (fun (acc : List (List Char) × List (List Char)) code =>
      if code = "IN".data then
        (acc.1 ++ indiaAliases.map (fun a => likePat a.data),
          acc.2 ++ ["in".data, "india".data])
      else
        (acc.1 ++ codeSepPatterns code, acc.2 ++ [lowerL code]))
    ([], [])
  let withEu :=
    if normalized.contains "EU".data then perCode.1 ++ [likePat "eu".data]
    else perCode.1
  let aliases := sortLex (dedupKeepFirst
    ((COUNTRY_NORM.filter
        (fun kv => normalized.contains (upperL kv.2.data) && 2 < kv.1.length)).map
      (fun kv => lowerL kv.1.data)))
  let withAliases := withEu ++ aliases.map likePat
  let hintStep := LOCATION_COUNTRY_HINTS.foldl
    (fun (acc : List (List Char) × List (List Char)) kv =>
      if normalized.contains (upperL kv.2.data) then
        (acc.1 ++ [likePat kv.1.data],
          acc.2 ++ (if kv.1.length ≤ 3 then [kv.1.data] else []))
      else acc)
    (withAliases, perCode.2)
  (dedupKeepFirst hintStep.1, sortLex (dedupKeepFirst hintStep.2))

/-- `f"LOWER(COALESCE({col}, '')) IN (" ++ placeholders ++ ")"`. -/
def inListClause (col : String) (n : ℕ) (ph : String) : List Char :=
  ("LOWER(COALESCE(" ++ col ++ ", '')) IN (").data ++
    joinSep ", ".data (List.replicate n ph.data) ++ [')']

/-- `f"LOWER(COALESCE({col}, '')) = %s"` (pg dialect). -/
def eqFragPg (col : String) : List Char :=
  ("LOWER(COALESCE(" ++ col ++ ", '')) = %s").data

/-- `f"LOWER(COALESCE({col}, '')) = ?"` (sqlite dialect). -/
def eqFragSqlite (col : String) : List Char :=
  ("LOWER(COALESCE(" ++ col ++ ", '')) = ?").data

/-- `f"LOWER(COALESCE({col}, '')) LIKE %s ESCAPE '\\'"` (pg dialect). -/
def likeFragPg (col : String) : List Char :=
  ("LOWER(COALESCE(" ++ col ++ ", '')) LIKE %s ESCAPE '\\'").data

/-- `f"LOWER(COALESCE({col}, '')) LIKE ? ESCAPE '\\'"` (sqlite dialect). -/
def likeFragSqlite (col : String) : List Char :=
  ("LOWER(COALESCE(" ++ col ++ ", '')) LIKE ? ESCAPE '\\'").data

/-- The `HIGH_PAY` branch of `Job._where`: city equals one of the high-pay
hubs. The `clauses` fields hold this branch's subclauses. -/
def highPayBranch : WhereParts :=
  ⟨[inListClause "city" highPayCities.length "%s"],
    [inListClause "city" highPayCities.length "?"],
    highPayCities.map (fun c => lowerL c.data),
    highPayCities.map (fun c => lowerL c.data)⟩

/-- The `EU` branch of `Job._where`: country in the sorted EU filter codes,
or city in the EU hub list. -/
def euBranch : WhereParts :=
  let eu_codes := sortLex (EU_FILTER_CODES.map (fun c => c.data))
  let countryP : WhereParts :=
    ⟨[inListClause "country" eu_codes.length "%s"],
      [inListClause "country" eu_codes.length "?"],
      eu_codes.map lowerL, eu_codes.map lowerL⟩
  let cityP : WhereParts :=
    if euHubs.isEmpty then .empty else
      ⟨[inListClause "city" euHubs.length "%s"],
        [inListClause "city" euHubs.length "?"],
        euHubs.map (fun h => lowerL h.data), euHubs.map (fun h => lowerL h.data)⟩
  countryP.app cityP

/-- The `IN` (India) branch of `Job._where`: exact country match plus the
India hub cities. -/
def inBranch : WhereParts :=
  let countryP : WhereParts :=
    ⟨[eqFragPg "country"], [eqFragSqlite "country"], ["in".data], ["in".data]⟩
  let cityP : WhereParts :=
    ⟨[inListClause "city" indiaHubs.length "%s"],
      [inListClause "city" indiaHubs.length "?"],
      indiaHubs.map (fun h => lowerL h.data), indiaHubs.map (fun h => lowerL h.data)⟩
  countryP.app cityP

/-- The `_country_patterns`-driven branch of `Job._where` (used for `CH`
and for every other plain two-letter code): exact-equality candidates over
the four searched columns, then LIKE candidates over the same columns. -/
def codeBranch (cd : List Char) : WhereParts :=
  let pe := country_patterns [⟨cd⟩]
  let patterns_like := pe.1
  let equals_exact := pe.2
  let eqP : WhereParts :=
    if equals_exact.isEmpty then .empty else
      ⟨[['('] ++ joinSep " OR ".data
          (equals_exact.foldl (fun acc _ => acc ++ columnsToSearch.map eqFragPg) []) ++
          [')']],
        [['('] ++ joinSep " OR ".data
          (equals_exact.foldl (fun acc _ => acc ++ columnsToSearch.map eqFragSqlite)
            []) ++ [')']],
        equals_exact.foldl
          (fun acc v => acc ++ columnsToSearch.map (fun _ => lowerL v)) [],
        equals_exact.foldl
          (fun acc v => acc ++ columnsToSearch.map (fun _ => lowerL v)) []⟩
  let likeP : WhereParts :=
    if patterns_like.isEmpty then .empty else
      ⟨[['('] ++ joinSep " OR ".data
          (patterns_like.foldl (fun acc _ => acc ++ columnsToSearch.map likeFragPg)
            []) ++ [')']],
        [['('] ++ joinSep " OR ".data
          (patterns_like.foldl
            (fun acc _ => acc ++ columnsToSearch.map likeFragSqlite) []) ++ [')']],
        patterns_like.foldl
          (fun acc p => acc ++ columnsToSearch.map (fun _ => p)) [],
        patterns_like.foldl
          (fun acc p => acc ++ columnsToSearch.map (fun _ => p)) []⟩
  eqP.app likeP

/-- The free-text fallback branch of `Job._where`: one LIKE pattern over
the four searched columns. -/
def fallbackBranch (c_raw : List Char) : WhereParts :=
  let pattern := likePat c_raw
  ⟨[['('] ++ joinSep " OR ".data (columnsToSearch.map likeFragPg) ++ [')']],
    [['('] ++ joinSep " OR ".data (columnsToSearch.map likeFragSqlite) ++ [')']],
    columnsToSearch.map (fun _ => pattern),
    columnsToSearch.map (fun _ => pattern)⟩

/-- A branch result has one subclause list per dialect; `Job._where` wraps
each nonempty list as one parenthesized OR clause. Both dialects share the
same emptiness (`Job._where` appends to both in lockstep). -/
def wrapCountry (b : WhereParts) : WhereParts :=
  if b.clauses_pg.isEmpty then .empty else
    ⟨[['('] ++ joinSep " OR ".data b.clauses_pg ++ [')']],
      [['('] ++ joinSep " OR ".data b.clauses_sqlite ++ [')']],
      b.params_pg, b.params_sqlite⟩

/-- The country half of `Job._where` (`if country:` block), with the
branch dispatch on the normalized country value. In `codeBranch` the
subclauses are already single parenthesized clauses, matching the source
appending `eq`/`like` groups to `subclauses_pg`. -/
def countryPart (country : String) : WhereParts :=
  if country.data.isEmpty then .empty else
  let c_raw := lowerL (pyStrip country.data)
  if c_raw.isEmpty then .empty else
  let upper := upperL c_raw
  let code : Option (List Char) :=
    if upper.length = 2 ∧ upper.all Char.isAlpha then some upper else none
  let branch : WhereParts :=
    if upper = "HIGH_PAY".data then highPayBranch
    else if upper = "EU".data then euBranch
    else if code = some "IN".data then inBranch
    else if upper = "CH".data then codeBranch "CH".data
    else
      match code with
      | some cd => codeBranch cd
      | none => fallbackBranch c_raw
  wrapCountry branch

/-- `Job._where`: the title clauses followed by the country clause. -/
def whereParts (title country : String) : WhereParts :=
  (titlePart title).app (countryPart country)

/-- The pg WHERE string of `Job._where`:
`f"WHERE {' AND '.join(clauses_pg)}"`, or empty. -/
def wherePgStr (w : WhereParts) : List Char :=
  if w.clauses_pg.isEmpty then [] else
    "WHERE ".data ++ joinSep " AND ".data w.clauses_pg

/-- The sqlite WHERE string of `Job._where`. -/
def whereSqliteStr (w : WhereParts) : List Char :=
  if w.clauses_sqlite.isEmpty then [] else
    "WHERE ".data ++ joinSep " AND ".data w.clauses_sqlite

/-! ### Placeholder counting lemmas -/

theorem phCount_append (a b : List Char) (h : a.getLast? ≠ some '%') :
    phCount (a ++ b) = phCount a + phCount b := by
  induction a with
  | nil => simp [phCount]
  | cons c cs ih =>
    cases cs with
    | nil =>
      have hc : c ≠ '%' := by simpa using h
      cases b with
      | nil => simp [phCount]
      | cons d ds => simp [phCount, hc]
    | cons d ds =>
      have h' : (d :: ds).getLast? ≠ some '%' := by
        rwa [List.getLast?_cons_cons] at h
      have ih' := ih h'
      simp only [List.append_eq, List.cons_append, phCount, List.head?_cons] at ih' ⊢
      omega

theorem qmCount_append (a b : List Char) :
    qmCount (a ++ b) = qmCount a + qmCount b := by
  simp [qmCount, List.countP_append]

theorem phCount_joinSep (sep : List Char) (hsep0 : phCount sep = 0)
    (hsepLast : sep.getLast? ≠ some '%') (l : List (List Char))
    (hl : ∀ x ∈ l, x.getLast? ≠ some '%') :
    phCount (joinSep sep l) = (l.map phCount).sum := by
  induction l with
  | nil => simp [joinSep, phCount]
  | cons x xs ih =>
    cases xs with
    | nil => simp [joinSep]
    | cons y rest =>
      have hx : x.getLast? ≠ some '%' := hl x (by simp)
      have hrest : ∀ z ∈ y :: rest, z.getLast? ≠ some '%' := fun z hz =>
        hl z (by simp [hz])
      have ih' := ih hrest
      rw [joinSep, List.append_assoc, phCount_append x _ hx,
        phCount_append sep _ hsepLast, hsep0, ih']
      simp [Nat.add_assoc]

theorem qmCount_joinSep (sep : List Char) (hsep0 : qmCount sep = 0)
    (l : List (List Char)) :
    qmCount (joinSep sep l) = (l.map qmCount).sum := by
  induction l with
  | nil => simp [joinSep, qmCount]
  | cons x xs ih =>
    cases xs with
    | nil => simp [joinSep]
    | cons y rest =>
      rw [joinSep, qmCount_append, qmCount_append, hsep0, ih]
      simp [Nat.add_assoc]

/-- The structural-parallelism invariant of the builder's intermediate
state: per-dialect placeholder totals match the parameter-list lengths,
the two parameter lists are equal, no pg fragment ends in `%` (so
placeholder counts add under concatenation), and the two clause lists are
empty together. -/
structure PartsOK (w : WhereParts) : Prop where
  pg_sum : (w.clauses_pg.map phCount).sum = w.params_pg.length
  sq_sum : (w.clauses_sqlite.map qmCount).sum = w.params_sqlite.length
  params_eq : w.params_pg = w.params_sqlite
  pg_last : ∀ x ∈ w.clauses_pg, x.getLast? ≠ some '%'
  empty_iff : w.clauses_pg = [] ↔ w.clauses_sqlite = []

theorem partsOK_empty : PartsOK .empty := by
  constructor <;> simp [WhereParts.empty]

theorem PartsOK.app_ok {a b : WhereParts} (ha : PartsOK a) (hb : PartsOK b) :
    PartsOK (a.app b) := by
  constructor
  · simp [WhereParts.app, ha.pg_sum, hb.pg_sum]
  · simp [WhereParts.app, ha.sq_sum, hb.sq_sum]
  · simp [WhereParts.app, ha.params_eq, hb.params_eq]
  · intro x hx
    rcases List.mem_append.1 hx with h | h
    · exact ha.pg_last x h
    · exact hb.pg_last x h
  · simp [WhereParts.app, List.append_eq_nil, ha.empty_iff, hb.empty_iff]

theorem phCount_append_paren (a : List Char) : phCount (a ++ [')']) = phCount a := by
  induction a with
  | nil => simp [phCount]
  | cons x xs ih =>
    cases xs with
    | nil => simp [phCount]
    | cons y ys =>
      simp only [List.append_eq, List.cons_append, phCount, List.head?_cons] at ih ⊢
      omega

theorem phCount_bracket (pre sep : List Char) (l : List (List Char))
    (hp : phCount pre = 0) (hpl : pre.getLast? ≠ some '%')
    (hs : phCount sep = 0) (hsl : sep.getLast? ≠ some '%')
    (hl : ∀ x ∈ l, x.getLast? ≠ some '%') :
    phCount (pre ++ joinSep sep l ++ [')']) = (l.map phCount).sum := by
  rw [phCount_append_paren, phCount_append _ _ hpl, hp,
    phCount_joinSep sep hs hsl l hl]
  omega

theorem qmCount_bracket (pre sep : List Char) (l : List (List Char))
    (hp : qmCount pre = 0) (hs : qmCount sep = 0) :
    qmCount (pre ++ joinSep sep l ++ [')']) = (l.map qmCount).sum := by
  rw [qmCount_append, qmCount_append, hp, qmCount_joinSep sep hs l]
  simp [qmCount]

theorem foldl_append_flatten {α β : Type} (f : α → List β) (l : List α)
    (init : List β) :
    l.foldl (fun acc x => acc ++ f x) init = init ++ (l.map f).flatten := by
  induction l generalizing init with
  | nil => simp
  | cons x xs ih => simp [ih, List.append_assoc]

theorem sum_map_flatten_const {α β : Type} (l : List α) (c : List β) (g : β → ℕ) :
    (((l.map (fun _ => c)).flatten).map g).sum = l.length * (c.map g).sum := by
  induction l with
  | nil => simp
  | cons x xs ih => simp [ih, Nat.succ_mul, Nat.add_comm]

theorem length_flatten_map {α β : Type} (l : List α) (f : α → List β) (n : ℕ)
    (h : ∀ x ∈ l, (f x).length = n) :
    ((l.map f).flatten).length = l.length * n := by
  induction l with
  | nil => simp
  | cons x xs ih =>
    have hx := h x (by simp)
    have ih' := ih (fun y hy => h y (by simp [hy]))
    simp [hx, ih', Nat.succ_mul, Nat.add_comm]

/-! ### The builder's groups satisfy the invariant -/

theorem coreParts_ok (q : List Char) : PartsOK (corePartsOf q) := by
  unfold corePartsOf
  split
  · exact partsOK_empty
  · refine ⟨?_, ?_, rfl, ?_, by simp⟩
    · show (List.map phCount [coreClausePg]).sum = 3
      decide
    · show (List.map qmCount [coreClauseSqlite]).sum = 3
      decide
    · intro x hx
      simp only [List.mem_singleton] at hx
      subst hx
      decide

theorem remoteParts_ok (b : Bool) : PartsOK (remotePartsOf b) := by
  unfold remotePartsOf
  split
  · refine ⟨?_, ?_, rfl, ?_, by simp⟩
    · show (List.map phCount [remoteClausePg]).sum = 4
      decide
    · show (List.map qmCount [remoteClauseSqlite]).sum = 4
      decide
    · intro x hx
      simp only [List.mem_singleton] at hx
      subst hx
      decide
  · exact partsOK_empty

theorem devParts_ok (b : Bool) : PartsOK (devPartsOf b) := by
  unfold devPartsOf
  split
  · refine ⟨by decide, by decide, rfl, ?_, by simp⟩
    intro x hx
    simp only [List.mem_singleton] at hx
    subst hx
    decide
  · exact partsOK_empty

theorem titlePart_ok (t : String) : PartsOK (titlePart t) := by
  unfold titlePart
  split
  · exact partsOK_empty
  · split
    · exact partsOK_empty
    · exact (coreParts_ok _).app_ok ((remoteParts_ok _).app_ok (devParts_ok _))

theorem phCount_inList_rep (pre : List Char) (n : ℕ) (hp : phCount pre = 0)
    (hpl : pre.getLast? ≠ some '%') :
    phCount (pre ++ joinSep ", ".data (List.replicate n "%s".data) ++ [')']) = n := by
  rw [phCount_bracket pre ", ".data _ hp hpl (by decide) (by decide)]
  · have h1 : phCount "%s".data = 1 := by decide
    simp [List.map_replicate, List.sum_replicate, h1]
  · intro x hx
    rw [List.eq_of_mem_replicate hx]
    decide

theorem qmCount_inList_rep (pre : List Char) (n : ℕ) (hp : qmCount pre = 0) :
    qmCount (pre ++ joinSep ", ".data (List.replicate n "?".data) ++ [')']) = n := by
  rw [qmCount_bracket pre ", ".data _ hp (by decide)]
  have h1 : qmCount "?".data = 1 := by decide
  simp [List.map_replicate, List.sum_replicate, h1]

theorem highPay_ok : PartsOK highPayBranch := by
  refine ⟨by decide, by decide, rfl, ?_, by simp [highPayBranch]⟩
  intro x hx
  simp only [highPayBranch, List.mem_singleton] at hx
  subst hx
  decide

theorem euBranch_ok : PartsOK euBranch := by
  unfold euBranch
  refine PartsOK.app_ok ⟨?_, ?_, rfl, ?_, by simp⟩ ?_
  · show (List.map phCount [inListClause "country" _ "%s"]).sum = _
    simp only [List.map_cons, List.map_nil, List.sum_cons, List.sum_nil,
      List.length_map]
    rw [inListClause, phCount_inList_rep _ _ (by decide) (by decide)]
    omega
  · show (List.map qmCount [inListClause "country" _ "?"]).sum = _
    simp only [List.map_cons, List.map_nil, List.sum_cons, List.sum_nil,
      List.length_map]
    rw [inListClause, qmCount_inList_rep _ _ (by decide)]
    omega
  · intro x hx
    simp only [List.mem_singleton] at hx
    subst hx
    rw [inListClause, List.getLast?_concat]
    decide
  · split
    · exact partsOK_empty
    · refine ⟨by decide, by decide, rfl, ?_, by simp⟩
      intro x hx
      simp only [List.mem_singleton] at hx
      subst hx
      decide

theorem inBranch_ok : PartsOK inBranch := by
  refine PartsOK.app_ok ⟨by decide, by decide, rfl, ?_, by simp⟩
    ⟨by decide, by decide, rfl, ?_, by simp⟩
  · intro x hx
    simp only [List.mem_singleton] at hx
    subst hx
    decide
  · intro x hx
    simp only [List.mem_singleton] at hx
    subst hx
    decide

theorem group_ok (vs : List (List Char)) (Fpg Fsq : List (List Char))
    (P : List Char → List (List Char)) (k : ℕ)
    (hpg : (Fpg.map phCount).sum = k) (hsq : (Fsq.map qmCount).sum = k)
    (hP : ∀ v, (P v).length = k)
    (hlast : ∀ x ∈ Fpg, x.getLast? ≠ some '%') :
    PartsOK
      ⟨[['('] ++ joinSep " OR ".data (vs.foldl (fun acc _ => acc ++ Fpg) []) ++
          [')']],
        [['('] ++ joinSep " OR ".data (vs.foldl (fun acc _ => acc ++ Fsq) []) ++
          [')']],
        vs.foldl (fun acc v => acc ++ P v) [],
        vs.foldl (fun acc v => acc ++ P v) []⟩ := by
  have hfpg : vs.foldl (fun acc _ => acc ++ Fpg) [] = (vs.map (fun _ => Fpg)).flatten := by
    rw [foldl_append_flatten]
    simp
  have hfsq : vs.foldl (fun acc _ => acc ++ Fsq) [] = (vs.map (fun _ => Fsq)).flatten := by
    rw [foldl_append_flatten]
    simp
  have hfP : vs.foldl (fun acc v => acc ++ P v) [] = (vs.map P).flatten := by
    rw [foldl_append_flatten]
    simp
  have hPlen : ((vs.map P).flatten).length = vs.length * k :=
    length_flatten_map vs P k (fun v _ => hP v)
  have hflast : ∀ x ∈ (vs.map (fun _ => Fpg)).flatten, x.getLast? ≠ some '%' := by
    intro x hx
    rcases List.mem_flatten.1 hx with ⟨sub, hsub, hxsub⟩
    rcases List.mem_map.1 hsub with ⟨v, _, rfl⟩
    exact hlast x hxsub
  constructor
  · simp only [List.map_cons, List.map_nil, List.sum_cons, List.sum_nil,
      Nat.add_zero, hfpg, hfP, hPlen]
    rw [phCount_bracket _ _ _ (by decide) (by decide) (by decide) (by decide) hflast,
      sum_map_flatten_const, hpg]
  · simp only [List.map_cons, List.map_nil, List.sum_cons, List.sum_nil,
      Nat.add_zero, hfsq, hfP, hPlen]
    rw [qmCount_bracket _ _ _ (by decide) (by decide), sum_map_flatten_const, hsq]
  · rfl
  · intro x hx
    simp only [List.mem_singleton] at hx
    subst hx
    rw [List.getLast?_concat]
    decide
  · simp

theorem codeBranch_ok (cd : List Char) : PartsOK (codeBranch cd) := by
  unfold codeBranch
  refine PartsOK.app_ok ?_ ?_
  · split
    · exact partsOK_empty
    · refine group_ok _ _ _ _ 4 (by decide) (by decide)
        (fun v => by simp [columnsToSearch]) ?_
      intro x hx
      simp only [columnsToSearch, List.map_cons, List.map_nil, List.mem_cons,
        List.not_mem_nil, or_false] at hx
      rcases hx with rfl | rfl | rfl | rfl <;> decide
  · split
    · exact partsOK_empty
    · refine group_ok _ _ _ _ 4 (by decide) (by decide)
        (fun v => by simp [columnsToSearch]) ?_
      intro x hx
      simp only [columnsToSearch, List.map_cons, List.map_nil, List.mem_cons,
        List.not_mem_nil, or_false] at hx
      rcases hx with rfl | rfl | rfl | rfl <;> decide

theorem fallback_ok (c_raw : List Char) : PartsOK (fallbackBranch c_raw) := by
  unfold fallbackBranch
  refine ⟨?_, ?_, rfl, ?_, by simp⟩
  · simp only [List.map_cons, List.map_nil, List.sum_cons, List.sum_nil,
      Nat.add_zero, List.length_map]
    decide
  · simp only [List.map_cons, List.map_nil, List.sum_cons, List.sum_nil,
      Nat.add_zero, List.length_map]
    decide
  · intro x hx
    simp only [List.mem_singleton] at hx
    subst hx
    rw [List.getLast?_concat]
    decide

theorem wrapCountry_ok {b : WhereParts} (hb : PartsOK b) :
    PartsOK (wrapCountry b) := by
  unfold wrapCountry
  split
  · exact partsOK_empty
  · refine ⟨?_, ?_, hb.params_eq, ?_, by simp⟩
    · simp only [List.map_cons, List.map_nil, List.sum_cons, List.sum_nil,
        Nat.add_zero]
      rw [phCount_bracket _ _ _ (by decide) (by decide) (by decide) (by decide)
        hb.pg_last]
      exact hb.pg_sum
    · simp only [List.map_cons, List.map_nil, List.sum_cons, List.sum_nil,
        Nat.add_zero]
      rw [qmCount_bracket _ _ _ (by decide) (by decide)]
      exact hb.sq_sum
    · intro x hx
      simp only [List.mem_singleton] at hx
      subst hx
      rw [List.getLast?_concat]
      decide

theorem countryPart_ok (c : String) : PartsOK (countryPart c) := by
  unfold countryPart
  dsimp only
  split
  · exact partsOK_empty
  · split
    · exact partsOK_empty
    · apply wrapCountry_ok
      repeat' split
      all_goals
        first
          | exact highPay_ok
          | exact euBranch_ok
          | exact inBranch_ok
          | exact codeBranch_ok _
          | exact fallback_ok _

theorem whereParts_ok (t c : String) : PartsOK (whereParts t c) :=
  (titlePart_ok t).app_ok (countryPart_ok c)

theorem wherePgStr_count {w : WhereParts} (h : PartsOK w) :
    phCount (wherePgStr w) = w.params_pg.length := by
  unfold wherePgStr
  split
  · next hEmpty =>
    have h0 := h.pg_sum
    rw [List.isEmpty_iff] at hEmpty
    rw [hEmpty] at h0
    simp only [List.map_nil, List.sum_nil] at h0
    simp [phCount, ← h0]
  · rw [phCount_append _ _ (by decide),
      phCount_joinSep " AND ".data (by decide) (by decide) _ h.pg_last, h.pg_sum]
    have h0 : phCount "WHERE ".data = 0 := by decide
    rw [h0]
    omega

theorem whereSqliteStr_count {w : WhereParts} (h : PartsOK w) :
    qmCount (whereSqliteStr w) = w.params_sqlite.length := by
  unfold whereSqliteStr
  split
  · next hEmpty =>
    have h0 := h.sq_sum
    rw [List.isEmpty_iff] at hEmpty
    rw [hEmpty] at h0
    simp only [List.map_nil, List.sum_nil] at h0
    simp [qmCount, ← h0]
  · rw [qmCount_append, qmCount_joinSep " AND ".data (by decide), h.sq_sum]
    have h0 : qmCount "WHERE ".data = 0 := by decide
    rw [h0]
    omega

/-- C9: for every (title, country) input, `Job._where` produces structurally
parallel pg-style and sqlite-style WHERE clauses: the number of `%s`
placeholders in the pg clause equals the number of `?` placeholders in the
sqlite clause, both equal the lengths of their respective parameter tuples,
and the pg parameter tuple is element-wise equal to the sqlite parameter
tuple. -/
theorem where_dialects_parallel (title country : String) :
    phCount (wherePgStr (whereParts title country)) =
      (whereParts title country).params_pg.length ∧
    qmCount (whereSqliteStr (whereParts title country)) =
      (whereParts title country).params_sqlite.length ∧
    (whereParts title country).params_pg = (whereParts title country).params_sqlite ∧
    phCount (wherePgStr (whereParts title country)) =
      qmCount (whereSqliteStr (whereParts title country)) := by
  have h := whereParts_ok title country
  refine ⟨wherePgStr_count h, whereSqliteStr_count h, h.params_eq, ?_⟩
  rw [wherePgStr_count h, whereSqliteStr_count h, h.params_eq]

/-- C2 counterexample: for the input title `developer`, the builder's only
clause is the developer clause, and that clause searches the
`job_description` column and carries 15 placeholders (five terms times
three columns), not five terms times the two title columns only: the
claimed restriction to the normalized-title and title fields is false. -/
theorem dev_clause_searches_description :
    (whereParts "developer" "").clauses_pg = [devClausePg] ∧
    containsSub "job_description".data devClausePg = true ∧
    (whereParts "developer" "").params_pg.length = 15 := by
  decide

/-- C2 amended: when the normalized title contains the token `developer`,
the builder adds one ANDed clause that OR-matches each of the five
developer terms across the normalized-title, title and description columns
(15 disjuncts, 15 parameters appended after the other title groups). -/
theorem dev_clause_added (t : String) (h : "developer".data ∈ titleTokens t) :
    devClausePg ∈ (titlePart t).clauses_pg ∧
    devClauseSqlite ∈ (titlePart t).clauses_sqlite ∧
    (∃ pre, (titlePart t).params_pg = pre ++ devParams) ∧
    phCount devClausePg = 15 ∧ devParams.length = 15 ∧
    containsSub "job_description".data devClausePg = true := by
  have hne : ¬t.data.isEmpty = true := by
    intro hc
    rw [List.isEmpty_iff] at hc
    simp [titleTokens, jobNormalizeTitle, pyStrip, lowerL, pySplit, pySplitF, hc] at h
  have hnorm : ¬(jobNormalizeTitle t.data).isEmpty = true := by
    intro hc
    rw [List.isEmpty_iff] at hc
    simp [titleTokens, pySplit, pySplitF, hc] at h
  have hflag : (titleTokens t).contains "developer".data = true := by
    exact List.elem_eq_true_of_mem h
  unfold titlePart
  rw [if_neg hne, if_neg hnorm]
  dsimp only
  rw [hflag]
  refine ⟨?_, ?_, ?_, by decide, by decide, by decide⟩
  · simp [WhereParts.app, devPartsOf]
  · simp [WhereParts.app, devPartsOf]
  · refine ⟨(corePartsOf (coreQueryOf (titleTokens t))).params_pg ++
      (remotePartsOf ((titleTokens t).contains "remote".data)).params_pg, ?_⟩
    simp [WhereParts.app, devPartsOf]

/-- C2 amended witness at the concrete title `developer`. -/
theorem dev_clause_added_witness :
    devClausePg ∈ (titlePart "developer").clauses_pg ∧
    containsSub "job_description".data devClausePg = true :=
  ⟨(dev_clause_added "developer" (by decide)).1,
    (dev_clause_added "developer" (by decide)).2.2.2.2.2⟩

/-- C3: for a median of 100000 and a title containing a bucket-1 keyword
and no bucket-2 keyword, the uplift factor is 1.05; the base ±20% range is
computed and rounded on the 10k grid first, giving (80000, 120000); the
uplift amount `median * (factor - 1)` is then added to both rounded
bounds, giving the numeric range (85000, 125000); and the adjusted bounds
are passed to the compact-string formatter directly, without being
re-rounded to the 10k grid first. -/
theorem estimate_senior_uplift (title : String)
    (h2 : TITLE_BUCKET2_KEYWORDS.any
      (fun k => containsSub k.data (lowerL title.data)) = false)
    (h1 : TITLE_BUCKET1_KEYWORDS.any
      (fun k => containsSub k.data (lowerL title.data)) = true) :
    salary_range_around (some 100000) 0.2 = some (80000, 120000, "80k", "120k") ∧
    estimateSalary (some 100000) title =
      (1.05, some (85000, 125000),
        some (compactSalaryNumber ((80000 : ℚ) + 100000 * (1.05 - 1)) ++ "–" ++
          compactSalaryNumber ((120000 : ℚ) + 100000 * (1.05 - 1)))) := by
  have fd80 : Int.fdiv 80 10 = 8 := by decide
  have fd129 : Int.fdiv 129 10 = 12 := by decide
  have hsra : salary_range_around (some 100000) 0.2 =
      some (80000, 120000, "80k", "120k") := by
    norm_num [salary_range_around, roundFloor10k, roundCeil10k, compactSalaryNumber,
      pyRound, pyInt, ratFloor, fd80, fd129] <;> decide
  refine ⟨hsra, ?_⟩
  have hup : upliftFactor title = 1.05 := by
    unfold upliftFactor
    dsimp only
    rw [h2, h1]
    norm_num
  simp only [estimateSalary, hsra, hup]
  norm_num [pyInt, ratFloor]

/-- C3 witness at the concrete title `Senior Engineer`. -/
theorem estimate_senior_uplift_witness :
    (estimateSalary (some 100000) "Senior Engineer").1 = 1.05 ∧
    (estimateSalary (some 100000) "Senior Engineer").2.1 = some (85000, 125000) :=
  ⟨by rw [(estimate_senior_uplift "Senior Engineer" (by decide) (by decide)).2],
    by rw [(estimate_senior_uplift "Senior Engineer" (by decide) (by decide)).2]⟩

/-- C5 counterexample: a median of 0 does not make the estimator return
nothing; `salary_range_around` returns the degenerate range (0, 0) and
the estimation pipeline yields the numeric range (0, 0) with display
string `0–0`. -/
theorem estimator_zero_median_returns_range :
    salary_range_around (some 0) 0.2 = some (0, 0, "0", "0") ∧
    estimateSalary (some 0) "dev" = (1.0, some (0, 0), some "0–0") := by
  have h2 : (TITLE_BUCKET2_KEYWORDS.any
      fun k => containsSub k.data (lowerL "dev".data)) = false := by decide
  have h1 : (TITLE_BUCKET1_KEYWORDS.any
      fun k => containsSub k.data (lowerL "dev".data)) = false := by decide
  constructor
  · norm_num [salary_range_around, roundFloor10k, roundCeil10k, compactSalaryNumber,
      pyRound, pyInt, ratFloor] <;> decide
  · norm_num [estimateSalary, salary_range_around, upliftFactor, h1, h2,
      roundFloor10k, roundCeil10k, compactSalaryNumber, pyRound, pyInt, ratFloor] <;>
      decide

/-- C5 amended: the estimator returns nothing only when the median is
absent; for every numeric median, including 0 and negative values, both
`salary_range_around` and the estimation pipeline produce a range. -/
theorem salary_estimator_none_only_for_absent_median (m : ℚ) (t : String) :
    salary_range_around none 0.2 = none ∧
    (salary_range_around (some m) 0.2).isSome = true ∧
    (estimateSalary (some m) t).2.1.isSome = true := by
  refine ⟨rfl, by simp [salary_range_around], ?_⟩
  simp only [estimateSalary, salary_range_around]
  split <;> simp

/-- C6: with a parsed salary floor of at least 100000, a row is kept
exactly when its basis (the estimated range's high end when available,
else the raw median) exists and is at least the floor; in particular a
basis exactly equal to the floor is kept, and a row is dropped only when
the basis is strictly below the floor or absent. -/
theorem salary_floor_filter_inclusive (f : ℕ) (est : Option (ℤ × ℤ))
    (med : Option ℚ) (h : 100000 ≤ f) :
    keepRowForFloor (some f) est med = true ↔
      ∃ b, floorFilterBasis est med = some b ∧ (f : ℚ) ≤ b := by
  simp only [keepRowForFloor]
  rw [if_pos ⟨by omega, h⟩]
  cases hb : floorFilterBasis est med with
  | none => simp
  | some b => simp [hb]

/-- C6 witness: floor exactly 100000 with estimated high exactly 100000 is
kept. -/
theorem salary_floor_filter_inclusive_witness :
    keepRowForFloor (some 100000) (some (80000, 100000)) none = true :=
  (salary_floor_filter_inclusive 100000 (some (80000, 100000)) none
      (by norm_num)).2
    ⟨((100000 : ℤ) : ℚ), rfl, by norm_num⟩

/-- C7: a lookup in either result cache returns the stored value exactly
while `now - storedAt < 30` seconds (`Job._CACHE_TTL = 30`), and a miss
(`None`) once `now - storedAt ≥ 30`; an expired entry is never returned. -/
theorem cache_ttl_lookup (kc : String × String) (ks : String × String × ℤ × ℤ)
    (mc : CountCache) (ms : SearchCache) (tc ts now : ℚ) (vc : ℤ)
    (vr : List RowMap) (hc : dictGet mc kc = some (tc, vc))
    (hs : dictGet ms ks = some (ts, vr)) :
    CACHE_TTL = 30 ∧
    (cacheGetCount mc now kc = some vc ↔ now - tc < 30) ∧
    (cacheGetCount mc now kc = none ↔ ¬now - tc < 30) ∧
    (cacheGetSearch ms now ks = some vr ↔ now - ts < 30) ∧
    (cacheGetSearch ms now ks = none ↔ ¬now - ts < 30) := by
  refine ⟨rfl, ?_, ?_, ?_, ?_⟩ <;>
    simp only [cacheGetCount, cacheGetSearch, cacheGet, hc, hs, CACHE_TTL] <;>
    split <;> simp_all

theorem dictSet_fst_nodup {κ α : Type} [DecidableEq κ] (m : List (κ × α)) (k : κ)
    (v : α) (h : (m.map Prod.fst).Nodup) :
    ((dictSet m k v).map Prod.fst).Nodup := by
  unfold dictSet
  split
  · have hmap : (m.map (fun e => if e.1 = k then (k, v) else e)).map Prod.fst =
        m.map Prod.fst := by
      rw [List.map_map]
      apply List.map_congr_left
      intro e _
      by_cases hek : e.1 = k
      · simp [hek]
      · simp [hek]
    rw [hmap]
    exact h
  · next hany =>
    have hk : k ∉ m.map Prod.fst := by
      intro hmem
      rcases List.mem_map.1 hmem with ⟨e, he, hek⟩
      exact hany (List.any_eq_true.2 ⟨e, he, by simp [hek]⟩)
    rw [List.map_append]
    simp only [List.map_cons, List.map_nil]
    rw [List.nodup_append]
    refine ⟨h, List.nodup_singleton k, ?_⟩
    intro a ha hak
    rw [List.mem_singleton] at hak
    subst hak
    exact hk ha

theorem cachePrune_spec {κ α : Type} [DecidableEq κ] (s : List (κ × ℚ × α))
    (hnd : (s.map Prod.fst).Nodup) :
    (cachePrune s).length = min s.length CACHE_MAX ∧
    (∀ e ∈ s, e ∉ cachePrune s → ∀ e₂ ∈ cachePrune s, e.2.1 ≤ e₂.2.1) := by
  unfold cachePrune
  split
  · next hle =>
    refine ⟨(Nat.min_eq_left hle).symm, ?_⟩
    intro e he hne
    exact (hne he).elim
  · next hgt =>
    dsimp only
    rw [Nat.not_le] at hgt
    have hperm : List.Perm (s.mergeSort (fun e₁ e₂ => e₁.2.1 ≤ e₂.2.1)) s :=
      List.mergeSort_perm s _
    have hsorted : (s.mergeSort (fun e₁ e₂ => e₁.2.1 ≤ e₂.2.1)).Pairwise
        (fun a b => a.2.1 ≤ b.2.1) := by
      have hpw := @List.sorted_mergeSort _
        (fun (e₁ e₂ : κ × ℚ × α) => decide (e₁.2.1 ≤ e₂.2.1))
        (fun a b c hab hbc => by
          simp only [decide_eq_true_eq] at *
          exact le_trans hab hbc)
        (fun a b => by
          simpa [Bool.or_eq_true, decide_eq_true_eq] using le_total a.2.1 b.2.1)
        s
      exact hpw.imp (fun h => by simpa [decide_eq_true_eq] using h)
    have hndl : s.Nodup := hnd.of_map
    have hmapnd :
        ((s.mergeSort (fun e₁ e₂ => e₁.2.1 ≤ e₂.2.1)).map Prod.fst).Nodup :=
      ((hperm.map Prod.fst).nodup_iff).mpr hnd
    have hsortnd : (s.mergeSort (fun e₁ e₂ => e₁.2.1 ≤ e₂.2.1)).Nodup :=
      hperm.nodup_iff.mpr hndl
    set n := s.length - CACHE_MAX with hn
    set sorted := s.mergeSort (fun e₁ e₂ => e₁.2.1 ≤ e₂.2.1) with hsort
    set oldest := sorted.take n with holdest
    set rest := sorted.drop n with hrest
    set pred := fun (e : κ × ℚ × α) => !oldest.any (fun o => o.1 = e.1) with hpred
    have hsplit : oldest ++ rest = sorted := List.take_append_drop n sorted
    have inj := List.inj_on_of_nodup_map hmapnd
    have hpredIff : ∀ e ∈ sorted, (pred e = true ↔ e ∉ oldest) := by
      intro e he
      constructor
      · intro hp hin
        rw [hpred] at hp
        simp only [Bool.not_eq_true', List.any_eq_false, decide_eq_true_eq] at hp
        exact hp e hin rfl
      · intro hnin
        rw [hpred]
        simp only [Bool.not_eq_true', List.any_eq_false, decide_eq_true_eq]
        intro o ho hok
        have hos : o ∈ sorted := List.take_subset n sorted ho
        have := inj hos he hok
        exact hnin (this ▸ ho)
    have hOldNil : oldest.filter pred = [] := by
      rw [List.filter_eq_nil_iff]
      intro o ho
      have hos : o ∈ sorted := List.take_subset n sorted ho
      intro hp
      exact ((hpredIff o hos).1 hp) ho
    have hRestSelf : rest.filter pred = rest := by
      rw [List.filter_eq_self]
      intro e he
      have hes : e ∈ sorted := List.drop_subset n sorted he
      refine (hpredIff e hes).2 ?_
      intro hin
      have hnd2 : (oldest ++ rest).Nodup := by rw [hsplit]; exact hsortnd
      exact (List.disjoint_left.1 (List.nodup_append.1 hnd2).2.2) hin he
    have hpf : List.Perm (s.filter pred) rest := by
      have h1 : List.Perm (s.filter pred) (sorted.filter pred) :=
        (hperm.filter pred).symm
      have h2 : sorted.filter pred = rest := by
        rw [← hsplit, List.filter_append, hOldNil, hRestSelf, List.nil_append]
      rw [h2] at h1
      exact h1
    have hlen : (s.filter pred).length = CACHE_MAX := by
      rw [hpf.length_eq, hrest, List.length_drop, hperm.length_eq, hn]
      omega
    constructor
    · rw [hlen, Nat.min_eq_right (by omega)]
    · intro e he hne e₂ he₂
      have hes : e ∈ sorted := hperm.mem_iff.2 he
      have hpe : pred e = false := by
        by_contra hp
        rw [Bool.not_eq_false] at hp
        exact hne (List.mem_filter.2 ⟨he, hp⟩)
      have hin : e ∈ oldest := by
        by_contra hnin
        rw [(hpredIff e hes).2 hnin] at hpe
        exact Bool.true_eq_false.mp hpe
      have h₂ : e₂ ∈ rest := hpf.mem_iff.1 he₂
      have hpw2 : (oldest ++ rest).Pairwise (fun a b => a.2.1 ≤ b.2.1) := by
        rw [hsplit]
        exact hsorted
      exact ((List.pairwise_append.1 hpw2).2.2) e hin e₂ h₂

theorem cacheSet_spec {κ α : Type} [DecidableEq κ] (m : List (κ × ℚ × α)) (k : κ)
    (t : ℚ) (v : α) (h : (m.map Prod.fst).Nodup) :
    (cacheSet m k t v).length ≤ CACHE_MAX ∧
    (cacheSet m k t v).length = min (dictSet m k (t, v)).length CACHE_MAX ∧
    ∀ e ∈ dictSet m k (t, v), e ∉ cacheSet m k t v →
      ∀ e₂ ∈ cacheSet m k t v, e.2.1 ≤ e₂.2.1 := by
  have h' := dictSet_fst_nodup m k (t, v) h
  have hs := cachePrune_spec (dictSet m k (t, v)) h'
  refine ⟨?_, ?_, ?_⟩
  · rw [cacheSet, hs.1]
    exact Nat.min_le_right _ _
  · rw [cacheSet, hs.1]
  · rw [cacheSet]
    exact hs.2

/-- C8: after every insert, each of the two caches holds at most
`_CACHE_MAX = 128` entries; when the insert pushes a cache over that bound
the cache is cut back exactly to the limit, and every evicted entry's
stored timestamp is at most every surviving entry's timestamp (the oldest
entries are the ones evicted). -/
theorem cache_capacity_eviction (mc : CountCache) (kc : String × String)
    (tc : ℚ) (vc : ℤ) (ms : SearchCache) (ks : String × String × ℤ × ℤ)
    (ts : ℚ) (vr : List RowMap) (hc : (mc.map Prod.fst).Nodup)
    (hs : (ms.map Prod.fst).Nodup) :
    CACHE_MAX = 128 ∧
    ((cacheSetCount mc kc tc vc).length ≤ 128 ∧
      (cacheSetCount mc kc tc vc).length = min (dictSet mc kc (tc, vc)).length 128 ∧
      ∀ e ∈ dictSet mc kc (tc, vc), e ∉ cacheSetCount mc kc tc vc →
        ∀ e₂ ∈ cacheSetCount mc kc tc vc, e.2.1 ≤ e₂.2.1) ∧
    ((cacheSetSearch ms ks ts vr).length ≤ 128 ∧
      (cacheSetSearch ms ks ts vr).length = min (dictSet ms ks (ts, vr)).length 128 ∧
      ∀ e ∈ dictSet ms ks (ts, vr), e ∉ cacheSetSearch ms ks ts vr →
        ∀ e₂ ∈ cacheSetSearch ms ks ts vr, e.2.1 ≤ e₂.2.1) :=
  ⟨rfl, cacheSet_spec mc kc tc vc hc, cacheSet_spec ms ks ts vr hs⟩

/-- C8 witness at concrete one-entry caches. -/
theorem cache_capacity_eviction_witness :
    (cacheSetCount [] ("a", "b") 1 7).length ≤ 128 ∧
    (cacheSetSearch [] ("a", "b", 1, 0) 1 []).length ≤ 128 :=
  ⟨(cache_capacity_eviction [] ("a", "b") 1 7 [] ("a", "b", 1, 0) 1 []
      (by simp) (by simp)).2.1.1,
    (cache_capacity_eviction [] ("a", "b") 1 7 [] ("a", "b", 1, 0) 1 []
      (by simp) (by simp)).2.2.1⟩

/-- C7 witness: a concrete entry stored at time 0 is returned at time 10
and missed at time 30. -/
theorem cache_ttl_lookup_witness :
    cacheGetCount [(("a", "b"), (0, 5))] 10 ("a", "b") = some 5 ∧
    cacheGetCount [(("a", "b"), (0, 5))] 30 ("a", "b") = none :=
  ⟨(cache_ttl_lookup ("a", "b") ("a", "b", 0, 0) [(("a", "b"), (0, 5))]
        [(("a", "b", 0, 0), (0, []))] 0 0 10 5 [] rfl rfl).2.1.2
      (by norm_num),
    (cache_ttl_lookup ("a", "b") ("a", "b", 0, 0) [(("a", "b"), (0, 5))]
        [(("a", "b", 0, 0), (0, []))] 0 0 30 5 [] rfl rfl).2.2.1.2
      (by norm_num)⟩

end Catalitium
